import Mathlib

/-!
# simple-database: a file-backed document store

A shallow embedding of `main.go`: the `Driver` operations `New`, `Write`,
`Read`, `ReadAll`, `Delete` and the helper `stat`, over an explicit model of
the file system and of the `path/filepath` and `os` calls they make.

* A Go path string is kept in split form: whether it begins with the
  separator, and the elements between separators.  `Clean` and `Join` follow
  the lexical rules of `path/filepath` (Unix).
* The file system is a finite table from clean paths to nodes (regular file
  with its contents, or directory).  A path is resolved element by element:
  `os.Stat` fails with `ENOENT` at a missing element and with `ENOTDIR` below
  a regular file.
* `encoding/json` is a parameter (`Codec`).
* The per-collection mutex taken by `Write` and `Delete` is the identity on
  the file system in a sequential run, so it is not threaded through.
-/

namespace SimpleDB

/-! ## Paths -/

/-- A clean path: `rooted` says the string starts with `/`; `elems` are the
elements between separators.  `⟨true, []⟩` is `/`, `⟨false, []⟩` is `.`,
`⟨false, ["a", "b"]⟩` is `a/b`. -/
structure Path where
  rooted : Bool
  elems : List String
deriving DecidableEq, Repr

/-- The pieces of a string between `/` separators, as `strings.Split(s, "/")`;
`acc` holds the current piece reversed. -/
def splitAux : List Char → List Char → List String
  | [], acc => [String.mk acc.reverse]
  | c :: cs, acc =>
    if c = '/' then String.mk acc.reverse :: splitAux cs [] else splitAux cs (c :: acc)

/-- The pieces of `s` between separators. -/
def pieces (s : String) : List String := splitAux s.data []

/-- Whether the string starts with the separator. -/
def isRooted (s : String) : Bool := s.data.head? == some '/'

/-- One step of `filepath.Clean` on the stack of kept elements (top first):
empty and `.` elements are dropped, `..` removes the element before it, is
dropped at the root and is kept at the start of a relative path. -/
def cleanStep (rooted : Bool) (stack : List String) (e : String) : List String :=
  if e = "" ∨ e = "." then stack
  else if e = ".." then
    match stack with
    | [] => if rooted then [] else [".."]
    | t :: rest => if t = ".." then ".." :: t :: rest else rest
  else e :: stack

/-- The elements that `filepath.Clean` keeps. -/
def cleanElems (rooted : Bool) (ps : List String) : List String :=
  (ps.foldl (cleanStep rooted) []).reverse

/-- Go `filepath.Clean`. -/
def Clean (s : String) : Path :=
  ⟨isRooted s, cleanElems (isRooted s) (pieces s)⟩

/-- Go `filepath.Join` on strings: leading empty elements are skipped, the
rest is joined with `/` and cleaned (the pieces of the joined string are the
pieces of the elements, in order).  When every element is empty Go returns
the empty string; `Delete` returns before that can happen. -/
def Join (elem : List String) : Path :=
  match elem.dropWhile (fun e => e = "") with
  | [] => ⟨false, []⟩
  | e :: es => ⟨isRooted e, cleanElems (isRooted e) ((e :: es).flatMap pieces)⟩

/-- Go `filepath.Join(p, elem...)` where the first element is the clean path
`p` (never empty as a string). -/
def Path.Join (p : Path) (elem : List String) : Path :=
  ⟨p.rooted, cleanElems p.rooted (p.elems ++ elem.flatMap pieces)⟩

/-- Go `filepath.Join(p, q)` of two clean paths. -/
def Path.JoinPath (p q : Path) : Path :=
  ⟨p.rooted, cleanElems p.rooted (p.elems ++ q.elems)⟩

/-- String concatenation `p + ext` for a suffix without separator: the suffix
goes onto the last element; `/` becomes `/ext` and `.` becomes `.ext`
with the dot of `.` in front. -/
def Path.add (p : Path) (ext : String) : Path :=
  match p.elems.reverse with
  | [] => ⟨p.rooted, [if p.rooted then ext else "." ++ ext]⟩
  | l :: r => ⟨p.rooted, ((l ++ ext) :: r).reverse⟩

/-- The directory a path lies in (its elements without the last). -/
def Path.parent (p : Path) : Path := ⟨p.rooted, p.elems.dropLast⟩

/-- Whether `q` is `p` or lies beneath it. -/
def Path.within (p q : Path) : Bool :=
  p.rooted == q.rooted && p.elems.isPrefixOf q.elems

/-! ## File system -/

/-- A file-system node. -/
inductive Node where
  | file (data : String)
  | dir
deriving DecidableEq, Repr

/-- Errors of the `os` calls, of `encoding/json` and of the driver. -/
inductive Error where
  | notExist
  | exist
  | isDir
  | notDir
  | invalid
  | fault
  | marshal
  | unmarshal
  | missingCollection
  | missingResource
  | notFound
deriving DecidableEq, Repr

/-- The file system: a table of the paths that exist. -/
abbrev FS := List (Path × Node)

/-- Table lookup. -/
def FS.get : FS → Path → Option Node
  | [], _ => none
  | (q, n) :: rest, p => if q = p then some n else FS.get rest p

/-- Paths that always exist as directories: `/`, `.`, `..`, `../..`, ... -/
def isAnchor (p : Path) : Bool := p.elems.all (fun e => e == "..")

/-- The node recorded for a path: an anchor is a directory, every other path
has its table entry. -/
def FS.node (fs : FS) (p : Path) : Option Node :=
  if isAnchor p then some Node.dir else fs.get p

/-- Path resolution, on the elements of the path last first: the parent is
resolved first; below a directory the path has its recorded node or does not
exist (`ENOENT`), below a regular file it is `ENOTDIR`, and an error of the
parent is the error of the path. -/
def statRev (fs : FS) (rooted : Bool) : List String → Except Error Node
  | [] => Except.ok Node.dir
  | e :: rest =>
    match statRev fs rooted rest with
    | Except.ok Node.dir =>
      match fs.node ⟨rooted, (e :: rest).reverse⟩ with
      | some n => Except.ok n
      | none => Except.error Error.notExist
    | Except.ok (Node.file _) => Except.error Error.notDir
    | Except.error err => Except.error err

/-- Go `os.Stat` with its error: the node, `ENOENT` or `ENOTDIR`. -/
def osStat (fs : FS) (p : Path) : Except Error Node :=
  statRev fs p.rooted p.elems.reverse

/-- What `os.Stat` finds at a path: the node, or nothing when it fails. -/
def Stat (fs : FS) (p : Path) : Option Node :=
  match osStat fs p with
  | Except.ok n => some n
  | Except.error _ => none

/-- Remove the entry of one path. -/
def FS.erase (fs : FS) (p : Path) : FS := fs.filter (fun e => !decide (e.1 = p))

/-- Set the entry of one path. -/
def FS.set (fs : FS) (p : Path) (n : Node) : FS := (p, n) :: fs.erase p

/-- Go `os.Mkdir`: the path must be free and its parent a directory; the new
directory is empty. -/
def Mkdir (fs : FS) (p : Path) (fail : Bool) : Option Error × FS :=
  match Stat fs p with
  | some _ => (some Error.exist, fs)
  | none =>
    match osStat fs p.parent with
    | Except.ok Node.dir =>
      if fail then (some Error.fault, fs)
      else (none, (p, Node.dir) :: fs.filter (fun e => !p.within e.1))
    | Except.ok (Node.file _) => (some Error.notDir, fs)
    | Except.error err => (some err, fs)

/-- Go `os.MkdirAll` on the elements of the path, last first: an existing
directory is success, an existing file is `ENOTDIR`, otherwise the parent is
made first and then the directory itself. -/
def mkdirAllRev (rooted : Bool) (fail : Bool) : List String → FS → Option Error × FS
  | [], fs => (none, fs)
  | e :: rest, fs =>
    match Stat fs ⟨rooted, (e :: rest).reverse⟩ with
    | some Node.dir => (none, fs)
    | some (Node.file _) => (some Error.notDir, fs)
    | none =>
      match mkdirAllRev rooted fail rest fs with
      | (some err, fs1) => (some err, fs1)
      | (none, fs1) =>
        match Mkdir fs1 ⟨rooted, (e :: rest).reverse⟩ fail with
        | (some err, fs2) =>
          if Stat fs2 ⟨rooted, (e :: rest).reverse⟩ = some Node.dir then (none, fs2)
          else (some err, fs2)
        | (none, fs2) => (none, fs2)

/-- Go `os.MkdirAll`. -/
def MkdirAll (fs : FS) (p : Path) (fail : Bool) : Option Error × FS :=
  mkdirAllRev p.rooted fail p.elems.reverse fs

/-- Go `os.WriteFile`: the path must not be a directory and its parent must
be one; the file is created or truncated and the data written.  `short` is an
injected failure after that many bytes: the file keeps what was written and
the call fails. -/
def WriteFile (fs : FS) (p : Path) (data : String) (short : Option Nat) :
    Option Error × FS :=
  match Stat fs p with
  | some Node.dir => (some Error.isDir, fs)
  | _ =>
    match osStat fs p.parent with
    | Except.ok Node.dir =>
      match short with
      | some k => (some Error.fault, fs.set p (Node.file (String.mk (data.data.take k))))
      | none => (none, fs.set p (Node.file data))
    | Except.ok (Node.file _) => (some Error.notDir, fs)
    | Except.error err => (some err, fs)

/-- Go `os.Rename` of a regular file: the source must exist, the target must
not be a directory and must lie in a directory; the target is replaced in one
step.  (Every call site renames the file it has just written.) -/
def Rename (fs : FS) (old new : Path) (fail : Bool) : Option Error × FS :=
  match osStat fs old with
  | Except.error err => (some err, fs)
  | Except.ok Node.dir => (some Error.invalid, fs)
  | Except.ok (Node.file data) =>
    match Stat fs new with
    | some Node.dir => (some Error.exist, fs)
    | _ =>
      match osStat fs new.parent with
      | Except.ok Node.dir =>
        if fail then (some Error.fault, fs)
        else (none, ((fs.erase old).erase new).set new (Node.file data))
      | Except.ok (Node.file _) => (some Error.notDir, fs)
      | Except.error err => (some err, fs)

/-- Go `os.ReadFile`. -/
def ReadFile (fs : FS) (p : Path) : Except Error String :=
  match osStat fs p with
  | Except.ok (Node.file data) => Except.ok data
  | Except.ok Node.dir => Except.error Error.isDir
  | Except.error err => Except.error err

/-- Insertion into a list of names sorted by filename. -/
def insertName (x : String) : List String → List String
  | [] => [x]
  | y :: ys => if x < y then x :: y :: ys else if x = y then y :: ys else y :: insertName x ys

/-- The names of the entries directly inside `p`, sorted by filename. -/
def childNames (fs : FS) (p : Path) : List String :=
  fs.foldr (fun e acc =>
    if e.1.rooted = p.rooted ∧ e.1.elems.dropLast = p.elems ∧ e.1.elems ≠ [] ∧
        isAnchor e.1 = false then
      match e.1.elems.getLast? with
      | some x => insertName x acc
      | none => acc
    else acc) []

/-- Go `os.ReadDir`: the entries of a directory, sorted by filename. -/
def ReadDir (fs : FS) (p : Path) : Except Error (List String) :=
  match osStat fs p with
  | Except.ok Node.dir => Except.ok (childNames fs p)
  | Except.ok (Node.file _) => Except.error Error.notDir
  | Except.error err => Except.error err

/-- Go `os.RemoveAll`: removes the path and everything beneath it; a path that
does not exist is no error; the path `.` is refused. -/
def RemoveAll (fs : FS) (p : Path) : Option Error × FS :=
  if p = ⟨false, []⟩ then (some Error.invalid, fs)
  else (none, fs.filter (fun e => !p.within e.1))

/-! ## The driver -/

/-- The part of `encoding/json` the driver uses. -/
structure Codec (V : Type) where
  MarshalIndent : V → Except Error String
  Unmarshal : String → Except Error V

/-- Injected I/O failures of one `Write`: of a `Mkdir`, of the temp-file write
(after that many bytes), of the rename. -/
structure Faults where
  mkdir : Bool
  write : Option Nat
  rename : Bool
deriving DecidableEq, Repr

/-- No injected failure. -/
def Faults.none : Faults := ⟨false, Option.none, false⟩

/-- The driver: its database directory. -/
structure Driver where
  dir : Path
deriving DecidableEq, Repr

/-- Source `New`: the directory is cleaned; it is created unless it exists. -/
def New (fs : FS) (dir : String) (fail : Bool) : Driver × Option Error × FS :=
  let dir := Clean dir
  let driver : Driver := ⟨dir⟩
  match Stat fs dir with
  | some _ => (driver, none, fs)
  | none => (driver, MkdirAll fs dir fail)

/-- Source `stat`: `os.Stat` of the path, and only when that fails with
not-exist, `os.Stat` of the path with `.json` appended; any other error of the
first call is returned as it is. -/
def stat (fs : FS) (path : Path) : Except Error Node :=
  match osStat fs path with
  | Except.ok fi => Except.ok fi
  | Except.error Error.notExist => osStat fs (path.add ".json")
  | Except.error err => Except.error err

/-- Source `Driver.Write`.  The two tests for an empty name build an error value
with `fmt.Errorf` and drop it: nothing is returned there. -/
def Driver.Write {V : Type} (c : Codec V) (d : Driver) (fs : FS) (io : Faults)
    (collection resource : String) (v : V) : Option Error × FS :=
  let _dropped1 : Option Error := if collection = "" then some Error.missingCollection else none
  let _dropped2 : Option Error := if resource = "" then some Error.missingResource else none
  let dir := d.dir.Join [collection]
  let fnlPath := dir.Join [resource ++ ".json"]
  let tmpPath := fnlPath.add ".tmp"
  match MkdirAll fs dir io.mkdir with
  | (some err, fs1) => (some err, fs1)
  | (none, fs1) =>
    match c.MarshalIndent v with
    | Except.error err => (some err, fs1)
    | Except.ok b =>
      match WriteFile fs1 tmpPath (b ++ "\n") io.write with
      | (some err, fs2) => (some err, fs2)
      | (none, fs2) => Rename fs2 tmpPath fnlPath io.rename

/-- Source `Driver.Read`.  The two tests for an empty name build an error value and
drop it, as in `Write`. -/
def Driver.Read {V : Type} (c : Codec V) (d : Driver) (fs : FS)
    (collection resource : String) : Except Error V :=
  let _dropped1 : Option Error := if collection = "" then some Error.missingCollection else none
  let _dropped2 : Option Error := if resource = "" then some Error.missingResource else none
  let record := d.dir.Join [collection, resource]
  match stat fs record with
  | Except.error err => Except.error err
  | Except.ok _ =>
    match ReadFile fs (record.add ".json") with
    | Except.error err => Except.error err
    | Except.ok b => c.Unmarshal b

/-- The loop of `ReadAll`: every entry is read in full; the first failure
ends the loop with that error. -/
def readEntries (fs : FS) (dir : Path) : List String → Except Error (List String)
  | [] => Except.ok []
  | name :: files =>
    match ReadFile fs (dir.Join [name]) with
    | Except.error err => Except.error err
    | Except.ok b =>
      match readEntries fs dir files with
      | Except.error err => Except.error err
      | Except.ok records => Except.ok (b :: records)

/-- Source `Driver.ReadAll`.  The error of `os.ReadDir` is dropped: on failure the
list of entries is empty. -/
def Driver.ReadAll (d : Driver) (fs : FS) (collection : String) :
    Except Error (List String) :=
  if collection = "" then Except.error Error.missingCollection
  else
    let dir := d.dir.Join [collection]
    match stat fs dir with
    | Except.error err => Except.error err
    | Except.ok _ =>
      let files := match ReadDir fs dir with
        | Except.ok names => names
        | Except.error _ => []
      readEntries fs dir files

/-- Source `Driver.Delete`.  The result of `os.RemoveAll` is dropped. -/
def Driver.Delete (d : Driver) (fs : FS) (collection resource : String) :
    Option Error × FS :=
  if collection = "" then (some Error.missingCollection, fs)
  else
    let path := Join [collection, resource]
    let dir := d.dir.JoinPath path
    match stat fs dir with
    | Except.error _ => (some Error.notFound, fs)
    | Except.ok Node.dir => (none, (RemoveAll fs dir).2)
    | Except.ok (Node.file _) => (none, (RemoveAll fs (dir.add ".json")).2)

/-! ## Names and example data -/

/-- A plain name: no separator, and not empty, `.` or `..`. -/
def PlainName (s : String) : Prop :=
  '/' ∉ s.data ∧ s ≠ "" ∧ s ≠ "." ∧ s ≠ ".."

instance (s : String) : Decidable (PlainName s) := by
  unfold PlainName; exact inferInstance

/-- A value round-trips through the codec: what `Write` stores for it (the
indented JSON and a newline) deserializes to it. -/
def RoundTrips {V : Type} (c : Codec V) (v : V) : Prop :=
  ∀ b, c.MarshalIndent v = Except.ok b → c.Unmarshal (b ++ "\n") = Except.ok v

/-- A toy codec on strings: a value is stored between quotes. -/
def quoteCodec : Codec String :=
  ⟨fun v => Except.ok ("\"" ++ v ++ "\""),
   fun s => Except.ok (String.mk ((s.data.drop 1).take (s.data.length - 3)))⟩

/-- The driver of the database directory `db`. -/
def dbDriver : Driver := ⟨⟨false, ["db"]⟩⟩

/-- A file system holding only the empty database directory `db`. -/
def emptyDB : FS := [(⟨false, ["db"]⟩, Node.dir)]

/-- The database after `john` has been written into collection `users`. -/
def johnDB : FS :=
  [(⟨false, ["db", "users", "john.json"]⟩, Node.file "\"J\"\n"),
    (⟨false, ["db", "users"]⟩, Node.dir), (⟨false, ["db"]⟩, Node.dir)]

/-- The database `johnDB` with a temp file that was cut off after two bytes. -/
def johnShortDB : FS :=
  (⟨false, ["db", "users", "john.json.tmp"]⟩, Node.file "\"K") :: johnDB

/-- The database holding only the file `db/users.json`. -/
def usersFileDB : FS :=
  [(⟨false, ["db", "users.json"]⟩, Node.file "\"J\"\n"), (⟨false, ["db"]⟩, Node.dir)]

/-- The database in which `db/plain` is a regular file. -/
def plainFileDB : FS :=
  [(⟨false, ["db", "plain"]⟩, Node.file "x"), (⟨false, ["db"]⟩, Node.dir)]

/-- The driver of the database directory `.`, as `New("./")` makes it. -/
def dotDriver : Driver := ⟨⟨false, []⟩⟩

/-- A file system holding the file `r.json` in the working directory. -/
def cwdDB : FS := [(⟨false, ["r.json"]⟩, Node.file "\"J\"\n")]

/-- A file system holding the database directory `db` and, beside it, the
file `x.json`. -/
def besideDB : FS :=
  [(⟨false, ["x.json"]⟩, Node.file "\"J\"\n"), (⟨false, ["db"]⟩, Node.dir)]

/-- The collection directory `filepath.Join(d.dir, collection)`. -/
def Driver.collDir (d : Driver) (collection : String) : Path := d.dir.Join [collection]

/-- The final path of `Write`. -/
def Driver.fnlPath (d : Driver) (collection resource : String) : Path :=
  (d.collDir collection).Join [resource ++ ".json"]

/-- The temp path of `Write`. -/
def Driver.tmpPath (d : Driver) (collection resource : String) : Path :=
  (d.fnlPath collection resource).add ".tmp"

/-- The record path of `Read`. -/
def Driver.record (d : Driver) (collection resource : String) : Path :=
  d.dir.Join [collection, resource]

/-- The target path of `Delete`. -/
def Driver.target (d : Driver) (collection resource : String) : Path :=
  d.dir.JoinPath (Join [collection, resource])

/-- The shape of a stack that `filepath.Clean` builds (top first): ordinary
elements above, and in a relative path a run of `..` at the bottom. -/
def CleanStack (rooted : Bool) : List String → Prop
  | [] => True
  | t :: rest =>
    (t ≠ "" ∧ t ≠ "." ∧ t ≠ ".." ∧ CleanStack rooted rest) ∨
      (t = ".." ∧ rooted = false ∧ ∀ x ∈ rest, x = "..")

/-! ## Lemmas on the table -/

theorem erase_cons (e : Path × Node) (rest : FS) (p : Path) :
    FS.erase (e :: rest) p = if e.1 = p then FS.erase rest p else e :: FS.erase rest p := by
  by_cases h : e.1 = p <;> simp [FS.erase, List.filter_cons, h]

theorem get_cons (q : Path) (n : Node) (rest : FS) (p : Path) :
    FS.get ((q, n) :: rest) p = if q = p then some n else FS.get rest p := rfl

theorem get_erase_self (fs : FS) (p : Path) : (fs.erase p).get p = none := by
  induction fs with
  | nil => rfl
  | cons e rest ih =>
    obtain ⟨q, n⟩ := e
    rw [erase_cons]
    by_cases h : q = p
    · simpa [h] using ih
    · simpa [h, get_cons] using ih

theorem get_erase_ne (fs : FS) (p q : Path) (h : p ≠ q) :
    (fs.erase p).get q = fs.get q := by
  induction fs with
  | nil => rfl
  | cons e rest ih =>
    obtain ⟨r, n⟩ := e
    rw [erase_cons]
    by_cases h1 : r = p
    · have h2 : r ≠ q := fun h3 => h (h1 ▸ h3)
      simpa [h1, get_cons, h2, h] using ih
    · by_cases h2 : r = q
      · subst h2
        simp [h1, get_cons]
      · simpa [h1, get_cons, h2] using ih

theorem erase_of_get_none (fs : FS) (p : Path) (h : fs.get p = none) :
    fs.erase p = fs := by
  induction fs with
  | nil => rfl
  | cons e rest ih =>
    obtain ⟨r, n⟩ := e
    rw [erase_cons]
    by_cases h1 : r = p
    · simp [get_cons, h1] at h
    · simp only [get_cons, h1, if_false] at h
      simp [h1, ih h]

theorem node_set_self (fs : FS) (p : Path) (n : Node) (h : isAnchor p = false) :
    (fs.set p n).node p = some n := by
  simp [FS.node, h, FS.set, FS.get]

theorem node_set_ne (fs : FS) (p q : Path) (n : Node) (h : p ≠ q) :
    (fs.set p n).node q = fs.node q := by
  simp [FS.node, FS.set, FS.get, h, get_erase_ne fs p q h]

theorem node_erase_ne (fs : FS) (p q : Path) (h : p ≠ q) :
    (fs.erase p).node q = fs.node q := by
  simp [FS.node, get_erase_ne fs p q h]

theorem get_filter (g : Path → Bool) (fs : FS) (q : Path) :
    FS.get (fs.filter (fun e => g e.1)) q = if g q then FS.get fs q else none := by
  induction fs with
  | nil => simp [FS.get]
  | cons e rest ih =>
    obtain ⟨p, n⟩ := e
    rw [List.filter_cons]
    by_cases h1 : g p = true
    · simp only [h1, if_true, get_cons, ih]
      by_cases h2 : p = q
      · subst h2; simp [h1]
      · simp [h2]
    · simp only [h1, get_cons]
      by_cases h2 : p = q
      · subst h2; simp [h1, ih]
      · simp [h2, ih]

theorem node_filter_out (fs : FS) (p q : Path) (h : p.within q = false) :
    FS.node (fs.filter (fun e => !p.within e.1)) q = fs.node q := by
  simp only [FS.node]
  rw [get_filter (fun x => !p.within x) fs q]
  simp [h]

theorem node_filter_in (fs : FS) (p q : Path) (h : p.within q = true)
    (ha : isAnchor q = false) :
    FS.node (fs.filter (fun e => !p.within e.1)) q = none := by
  simp only [FS.node, ha]
  rw [get_filter (fun x => !p.within x) fs q]
  simp [h]

/-! ## Lemmas on path resolution -/

theorem within_self (p : Path) : p.within p = true := by
  simp [Path.within, List.isPrefixOf_iff_prefix]

theorem within_snoc (r : Bool) (xs : List String) (c : String) :
    (⟨r, xs⟩ : Path).within ⟨r, xs ++ [c]⟩ = true := by
  simp [Path.within, List.isPrefixOf_iff_prefix]

theorem within_iff (p q : Path) :
    p.within q = true ↔ p.rooted = q.rooted ∧ p.elems <+: q.elems := by
  simp [Path.within, List.isPrefixOf_iff_prefix]

theorem within_trans {p q s : Path} (h1 : p.within q = true) (h2 : q.within s = true) :
    p.within s = true := by
  rw [within_iff] at *
  exact ⟨h1.1.trans h2.1, h1.2.trans h2.2⟩

theorem within_antisymm {p q : Path} (h1 : p.within q = true) (h2 : q.within p = true) :
    p = q := by
  rw [within_iff] at *
  have hl := h1.2.eq_of_length (Nat.le_antisymm h1.2.length_le h2.2.length_le)
  cases p; cases q
  simp only at hl h1
  simp [hl, h1.1]

theorem within_snoc_cases {p : Path} {r : Bool} {xs : List String} {x : String}
    (h : p.within ⟨r, xs ++ [x]⟩ = true) :
    p = ⟨r, xs ++ [x]⟩ ∨ p.within ⟨r, xs⟩ = true := by
  rw [within_iff] at h
  obtain ⟨hr, hp⟩ := h
  rcases List.prefix_concat_iff.mp hp with h1 | h1
  · left
    cases p
    simp only at hr h1
    simp [hr, h1]
  · right
    rw [within_iff]
    exact ⟨hr, h1⟩

theorem snoc_cases (xs : List String) : xs = [] ∨ ∃ ys y, xs = ys ++ [y] := by
  rcases List.eq_nil_or_concat xs with h | ⟨ys, y, h⟩
  · exact Or.inl h
  · exact Or.inr ⟨ys, y, by rw [h, List.concat_eq_append]⟩

theorem osStat_nil (fs : FS) (r : Bool) : osStat fs ⟨r, []⟩ = Except.ok Node.dir := rfl

theorem osStat_snoc (fs : FS) (r : Bool) (xs : List String) (x : String) :
    osStat fs ⟨r, xs ++ [x]⟩
      = match osStat fs ⟨r, xs⟩ with
        | Except.ok Node.dir =>
          match fs.node ⟨r, xs ++ [x]⟩ with
          | some n => Except.ok n
          | none => Except.error Error.notExist
        | Except.ok (Node.file _) => Except.error Error.notDir
        | Except.error err => Except.error err := by
  simp only [osStat, List.reverse_append, List.reverse_cons, List.reverse_nil, List.nil_append,
    List.singleton_append]
  rw [statRev]
  simp

theorem Stat_nil (fs : FS) (r : Bool) : Stat fs ⟨r, []⟩ = some Node.dir := rfl

theorem Stat_ok {fs : FS} {p : Path} {n : Node} :
    Stat fs p = some n ↔ osStat fs p = Except.ok n := by
  unfold Stat
  cases osStat fs p <;> simp

theorem Stat_none {fs : FS} {p : Path} :
    Stat fs p = none ↔ ∃ err, osStat fs p = Except.error err := by
  unfold Stat
  cases osStat fs p <;> simp

theorem Stat_snoc_dir {fs : FS} {r : Bool} {xs : List String} (x : String)
    (h : Stat fs ⟨r, xs⟩ = some Node.dir) :
    Stat fs ⟨r, xs ++ [x]⟩ = fs.node ⟨r, xs ++ [x]⟩ := by
  rw [Stat_ok] at h
  unfold Stat
  rw [osStat_snoc, h]
  simp only
  cases fs.node ⟨r, xs ++ [x]⟩ <;> rfl

theorem osStat_snoc_dir_none {fs : FS} {r : Bool} {xs : List String} (x : String)
    (h : Stat fs ⟨r, xs⟩ = some Node.dir) (hn : fs.node ⟨r, xs ++ [x]⟩ = none) :
    osStat fs ⟨r, xs ++ [x]⟩ = Except.error Error.notExist := by
  rw [Stat_ok] at h
  rw [osStat_snoc, h]
  simp only [hn]

theorem osStat_snoc_err {fs : FS} {r : Bool} {xs : List String} (x : String) {err : Error}
    (h : osStat fs ⟨r, xs⟩ = Except.error err) :
    osStat fs ⟨r, xs ++ [x]⟩ = Except.error err := by
  rw [osStat_snoc, h]

theorem osStat_snoc_file {fs : FS} {r : Bool} {xs : List String} (x : String) {data : String}
    (h : osStat fs ⟨r, xs⟩ = Except.ok (Node.file data)) :
    osStat fs ⟨r, xs ++ [x]⟩ = Except.error Error.notDir := by
  rw [osStat_snoc, h]

theorem Stat_snoc_not_dir {fs : FS} {r : Bool} {xs : List String} (x : String)
    (h : Stat fs ⟨r, xs⟩ ≠ some Node.dir) : Stat fs ⟨r, xs ++ [x]⟩ = none := by
  rw [Stat_none]
  cases h1 : osStat fs ⟨r, xs⟩ with
  | error err => exact ⟨err, osStat_snoc_err x h1⟩
  | ok n =>
    cases n with
    | dir => exact absurd (Stat_ok.mpr h1) h
    | file data => exact ⟨_, osStat_snoc_file x h1⟩

theorem Stat_snoc_some {fs : FS} {r : Bool} {xs : List String} {x : String} {n : Node}
    (h : Stat fs ⟨r, xs ++ [x]⟩ = some n) :
    Stat fs ⟨r, xs⟩ = some Node.dir ∧ fs.node ⟨r, xs ++ [x]⟩ = some n := by
  by_cases hd : Stat fs ⟨r, xs⟩ = some Node.dir
  · exact ⟨hd, by rw [← Stat_snoc_dir x hd]; exact h⟩
  · rw [Stat_snoc_not_dir x hd] at h
    simp at h

theorem Stat_node {fs : FS} {p : Path} {n : Node} (h : Stat fs p = some n) :
    fs.node p = some n := by
  obtain ⟨r, xs⟩ := p
  rcases snoc_cases xs with rfl | ⟨ys, y, rfl⟩
  · rw [Stat_nil] at h
    rw [← h]
    simp [FS.node, isAnchor]
  · exact (Stat_snoc_some h).2

theorem Stat_none_of_node {fs : FS} {p : Path} (h : fs.node p = none) : Stat fs p = none := by
  cases h1 : Stat fs p with
  | none => rfl
  | some n => rw [Stat_node h1] at h; simp at h

theorem Stat_anchor (fs : FS) (p : Path) (h : isAnchor p = true) :
    Stat fs p = some Node.dir := by
  obtain ⟨r, xs⟩ := p
  induction xs using List.reverseRecOn with
  | nil => rfl
  | append_singleton ys y ih =>
    have h1 : isAnchor ⟨r, ys⟩ = true := by
      simp only [isAnchor, List.all_append, Bool.and_eq_true] at h ⊢
      exact h.1
    rw [Stat_snoc_dir y (ih h1)]
    simp [FS.node, h]

theorem Stat_none_not_anchor {fs : FS} {p : Path} (h : Stat fs p = none) :
    isAnchor p = false := by
  by_contra ha
  rw [Stat_anchor fs p (by simpa using ha)] at h
  simp at h

theorem Stat_not_dir_not_anchor {fs : FS} {p : Path} (h : Stat fs p ≠ some Node.dir) :
    isAnchor p = false := by
  by_contra ha
  exact h (Stat_anchor fs p (by simpa using ha))

/-- Below a path that is not a directory nothing is found. -/
theorem Stat_beneath {fs : FS} {p q : Path} (h : Stat fs p ≠ some Node.dir)
    (hw : p.within q = true) (hne : q ≠ p) : Stat fs q = none := by
  obtain ⟨r, xs⟩ := q
  induction xs using List.reverseRecOn with
  | nil =>
    exfalso
    apply hne
    rw [within_iff] at hw
    obtain ⟨pr, pe⟩ := p
    simp only at hw
    have : pe = [] := by simpa using hw.2
    simp [this, hw.1]
  | append_singleton ys y ih =>
    rcases within_snoc_cases hw with h1 | h1
    · exact absurd h1.symm hne
    · by_cases h2 : (⟨r, ys⟩ : Path) = p
      · subst h2
        exact Stat_snoc_not_dir y h
      · have := ih h1 h2
        exact Stat_snoc_not_dir y (by rw [this]; simp)

/-- Resolution looks only at the nodes on the way to the path. -/
theorem osStat_congr {fs fs1 : FS} {q : Path}
    (h : ∀ s, s.within q = true → fs1.node s = fs.node s) : osStat fs1 q = osStat fs q := by
  obtain ⟨r, xs⟩ := q
  induction xs using List.reverseRecOn with
  | nil => rfl
  | append_singleton ys y ih =>
    have h1 := ih (fun s hs => h s (within_trans hs (within_snoc r ys y)))
    rw [osStat_snoc, osStat_snoc, h1, h _ (within_self _)]

theorem Stat_congr {fs fs1 : FS} {q : Path}
    (h : ∀ s, s.within q = true → fs1.node s = fs.node s) : Stat fs1 q = Stat fs q := by
  unfold Stat
  rw [osStat_congr h]

/-- A change of the node at one path that is not a directory, before and
after, changes what is found at no other path. -/
theorem Stat_update {fs fs1 : FS} {p : Path}
    (hnode : ∀ q, q ≠ p → fs1.node q = fs.node q)
    (h1 : Stat fs p ≠ some Node.dir) (h2 : fs1.node p ≠ some Node.dir) :
    ∀ q, q ≠ p → Stat fs1 q = Stat fs q := by
  intro q hq
  by_cases hw : p.within q = true
  · rw [Stat_beneath h1 hw hq]
    exact Stat_beneath (fun hh => h2 (Stat_node hh)) hw hq
  · refine Stat_congr (fun s hs => hnode s ?_)
    intro hh
    subst hh
    exact hw hs

theorem parent_snoc (r : Bool) (xs : List String) (x : String) :
    (⟨r, xs ++ [x]⟩ : Path).parent = ⟨r, xs⟩ := by
  simp [Path.parent]

theorem path_cases (p : Path) :
    p.elems = [] ∨ ∃ x, p = ⟨p.rooted, p.parent.elems ++ [x]⟩ := by
  obtain ⟨r, xs⟩ := p
  rcases snoc_cases xs with rfl | ⟨ys, y, rfl⟩
  · exact Or.inl rfl
  · exact Or.inr ⟨y, by simp [Path.parent]⟩

theorem not_anchor_cases {p : Path} (h : isAnchor p = false) :
    ∃ x, p = ⟨p.rooted, p.parent.elems ++ [x]⟩ := by
  rcases path_cases p with h1 | h1
  · simp [isAnchor, h1] at h
  · exact h1

theorem parent_ne {p : Path} (h : isAnchor p = false) : p.parent ≠ p := by
  obtain ⟨x, hx⟩ := not_anchor_cases h
  intro hh
  have := congrArg (fun q => q.elems.length) hh
  rw [hx] at this
  simp [Path.parent] at this

theorem parent_within (p : Path) : p.parent.within p = true := by
  rw [within_iff]
  exact ⟨rfl, List.dropLast_prefix _⟩

/-- With the parent a directory, the path has its recorded node. -/
theorem Stat_of_parent {fs : FS} {p : Path} (ha : isAnchor p = false)
    (h : Stat fs p.parent = some Node.dir) : Stat fs p = fs.node p := by
  obtain ⟨x, hx⟩ := not_anchor_cases ha
  have h1 : Stat fs ⟨p.rooted, p.parent.elems⟩ = some Node.dir := h
  have := Stat_snoc_dir x h1
  rw [← hx] at this
  exact this

theorem Stat_parent_of_some {fs : FS} {p : Path} {n : Node} (ha : isAnchor p = false)
    (h : Stat fs p = some n) : Stat fs p.parent = some Node.dir := by
  obtain ⟨x, hx⟩ := not_anchor_cases ha
  rw [hx] at h
  exact (Stat_snoc_some h).1

theorem osStat_of_parent_none {fs : FS} {p : Path} (ha : isAnchor p = false)
    (h : Stat fs p.parent = some Node.dir) (hn : Stat fs p = none) :
    osStat fs p = Except.error Error.notExist := by
  obtain ⟨x, hx⟩ := not_anchor_cases ha
  have h1 : Stat fs ⟨p.rooted, p.parent.elems⟩ = some Node.dir := h
  have h2 : fs.node p = none := by rw [← Stat_of_parent ha h]; exact hn
  rw [hx] at h2 ⊢
  exact osStat_snoc_dir_none x h1 h2

theorem osStat_of_parent_err {fs : FS} {p : Path} {err : Error} (ha : isAnchor p = false)
    (h : osStat fs p.parent = Except.error err) : osStat fs p = Except.error err := by
  obtain ⟨x, hx⟩ := not_anchor_cases ha
  have h1 : osStat fs ⟨p.rooted, p.parent.elems⟩ = Except.error err := h
  rw [hx]
  exact osStat_snoc_err x h1

theorem within_not_anchor {p q : Path} (h : isAnchor p = false) (hw : p.within q = true) :
    isAnchor q = false := by
  rw [within_iff] at hw
  obtain ⟨t, ht⟩ := hw.2
  simp only [isAnchor, ← ht, List.all_append, Bool.and_eq_false_iff] at h ⊢
  exact Or.inl h

/-! ## Lemmas on the `os` calls -/

theorem set_file_spec {fs : FS} {p : Path} (data : String)
    (h1 : Stat fs p ≠ some Node.dir) (h2 : Stat fs p.parent = some Node.dir) :
    Stat (fs.set p (Node.file data)) p = some (Node.file data) ∧
      ∀ q, q ≠ p → Stat (fs.set p (Node.file data)) q = Stat fs q := by
  have ha := Stat_not_dir_not_anchor h1
  have hframe : ∀ q, q ≠ p → Stat (fs.set p (Node.file data)) q = Stat fs q :=
    Stat_update (fun q hq => node_set_ne fs p q _ (Ne.symm hq)) h1
      (by rw [node_set_self _ _ _ ha]; simp)
  refine ⟨?_, hframe⟩
  rw [Stat_of_parent ha (by rw [hframe _ (parent_ne ha)]; exact h2)]
  exact node_set_self _ _ _ ha

theorem erase_spec {fs : FS} {p : Path} (h1 : Stat fs p ≠ some Node.dir) :
    Stat (fs.erase p) p = none ∧ ∀ q, q ≠ p → Stat (fs.erase p) q = Stat fs q := by
  have ha := Stat_not_dir_not_anchor h1
  have hn : (fs.erase p).node p = none := by simp [FS.node, ha, get_erase_self]
  exact ⟨Stat_none_of_node hn,
    Stat_update (fun q hq => node_erase_ne fs p q (Ne.symm hq)) h1 (by rw [hn]; simp)⟩

theorem mkdir_spec {fs : FS} {p : Path} (h1 : Stat fs p = none)
    (h2 : Stat fs p.parent = some Node.dir) :
    Stat ((p, Node.dir) :: fs.filter (fun e => !p.within e.1)) p = some Node.dir ∧
      ∀ q, q ≠ p →
        Stat ((p, Node.dir) :: fs.filter (fun e => !p.within e.1)) q = Stat fs q := by
  have ha := Stat_none_not_anchor h1
  have hout : ∀ q, p.within q = false →
      FS.node ((p, Node.dir) :: fs.filter (fun e => !p.within e.1)) q = fs.node q := by
    intro q hq
    have hne : p ≠ q := by
      intro hh; rw [← hh, within_self] at hq; simp at hq
    have := node_filter_out fs p q hq
    simp only [FS.node, get_cons, if_neg hne] at this ⊢
    exact this
  have hframe : ∀ q, q ≠ p →
      Stat ((p, Node.dir) :: fs.filter (fun e => !p.within e.1)) q = Stat fs q := by
    intro q hq
    by_cases hw : p.within q = true
    · have hb : Stat fs q = none := Stat_beneath (by rw [h1]; simp) hw hq
      rw [hb]
      apply Stat_none_of_node
      have hqa := within_not_anchor ha hw
      have := node_filter_in fs p q hw hqa
      simp only [FS.node, get_cons, if_neg (Ne.symm hq)] at this ⊢
      exact this
    · refine Stat_congr (fun s hs => hout s ?_)
      by_contra hh
      exact hw (within_trans (by simpa using hh) hs)
  refine ⟨?_, hframe⟩
  rw [Stat_of_parent ha (by rw [hframe _ (parent_ne ha)]; exact h2)]
  simp [FS.node, ha, get_cons]

theorem WriteFile_ok {fs fs1 : FS} {p : Path} {data : String} {short : Option Nat}
    (h : WriteFile fs p data short = (none, fs1)) :
    Stat fs p ≠ some Node.dir ∧ Stat fs p.parent = some Node.dir ∧
      fs1 = fs.set p (Node.file data) := by
  unfold WriteFile at h
  split at h
  · simp at h
  · rename_i hne
    split at h
    · split at h
      · simp at h
      · simp only [Prod.mk.injEq, true_and] at h
        exact ⟨fun hd => hne hd, Stat_ok.mpr (by assumption), h.symm⟩
    · simp at h
    · simp at h

theorem WriteFile_frame {fs fs1 : FS} {p : Path} {data : String} {short : Option Nat}
    {e : Option Error} (h : WriteFile fs p data short = (e, fs1)) (q : Path) (hq : p ≠ q) :
    Stat fs1 q = Stat fs q := by
  unfold WriteFile at h
  split at h
  · simp only [Prod.mk.injEq] at h; rw [← h.2]
  · rename_i hne
    split at h
    · rename_i hpar
      have h1 : Stat fs p ≠ some Node.dir := fun hd => hne hd
      have h2 : Stat fs p.parent = some Node.dir := Stat_ok.mpr hpar
      split at h <;>
        (simp only [Prod.mk.injEq] at h; rw [← h.2];
         exact (set_file_spec _ h1 h2).2 q (Ne.symm hq))
    · simp only [Prod.mk.injEq] at h; rw [← h.2]
    · simp only [Prod.mk.injEq] at h; rw [← h.2]

theorem Rename_ok {fs fs1 : FS} {old new : Path} {fail : Bool}
    (h : Rename fs old new fail = (none, fs1)) :
    ∃ data, Stat fs old = some (Node.file data) ∧ Stat fs new ≠ some Node.dir ∧
      Stat fs new.parent = some Node.dir ∧
      fs1 = ((fs.erase old).erase new).set new (Node.file data) := by
  unfold Rename at h
  split at h
  · simp at h
  · simp at h
  · rename_i data hold
    split at h
    · simp at h
    · rename_i hne
      split at h
      · split at h
        · simp at h
        · simp only [Prod.mk.injEq, true_and] at h
          exact ⟨data, Stat_ok.mpr hold, fun hd => hne hd, Stat_ok.mpr (by assumption),
            h.symm⟩
      · simp at h
      · simp at h

theorem Rename_err {fs fs1 : FS} {old new : Path} {fail : Bool} {err : Error}
    (h : Rename fs old new fail = (some err, fs1)) : fs1 = fs := by
  unfold Rename at h
  split at h
  · simp only [Prod.mk.injEq] at h; exact h.2.symm
  · simp only [Prod.mk.injEq] at h; exact h.2.symm
  · split at h
    · simp only [Prod.mk.injEq] at h; exact h.2.symm
    · split at h
      · split at h
        · simp only [Prod.mk.injEq] at h; exact h.2.symm
        · simp at h
      · simp only [Prod.mk.injEq] at h; exact h.2.symm
      · simp only [Prod.mk.injEq] at h; exact h.2.symm

/-- What a rename leaves: the target holds the data, the source is gone,
every other path is as before. -/
theorem rename_spec {fs : FS} {old new : Path} {data : String}
    (h1 : Stat fs old = some (Node.file data)) (h2 : Stat fs new ≠ some Node.dir)
    (h3 : Stat fs new.parent = some Node.dir) :
    Stat (((fs.erase old).erase new).set new (Node.file data)) new = some (Node.file data) ∧
      (∀ q, q ≠ old → q ≠ new →
        Stat (((fs.erase old).erase new).set new (Node.file data)) q = Stat fs q) ∧
      (old ≠ new → Stat (((fs.erase old).erase new).set new (Node.file data)) old = none) := by
  have ho : Stat fs old ≠ some Node.dir := by rw [h1]; simp
  obtain ⟨ea1, ea2⟩ := erase_spec ho
  have hna : Stat (fs.erase old) new ≠ some Node.dir := by
    by_cases hh : new = old
    · rw [hh, ea1]; simp
    · rw [ea2 new hh]; exact h2
  obtain ⟨eb1, eb2⟩ := erase_spec hna
  have ha := Stat_not_dir_not_anchor h2
  have hpo : new.parent ≠ old := by
    intro hh; rw [hh, h1] at h3; simp at h3
  have hpar : Stat ((fs.erase old).erase new) new.parent = some Node.dir := by
    rw [eb2 _ (parent_ne ha), ea2 _ hpo]; exact h3
  obtain ⟨s1, s2⟩ := set_file_spec data (by rw [eb1]; simp) hpar
  refine ⟨s1, ?_, ?_⟩
  · intro q hq1 hq2
    rw [s2 q hq2, eb2 q hq2, ea2 q hq1]
  · intro hne
    rw [s2 old hne, eb2 old hne, ea1]

theorem Mkdir_cases {fs fs1 : FS} {p : Path} {fail : Bool} {e : Option Error}
    (h : Mkdir fs p fail = (e, fs1)) :
    (e ≠ none ∧ fs1 = fs) ∨
      (e = none ∧ Stat fs p = none ∧ Stat fs1 p = some Node.dir ∧
        ∀ q, q ≠ p → Stat fs1 q = Stat fs q) := by
  unfold Mkdir at h
  split at h
  · simp only [Prod.mk.injEq] at h; exact Or.inl ⟨by rw [← h.1]; simp, h.2.symm⟩
  · rename_i hnone
    split at h
    · rename_i hpar
      split at h
      · simp only [Prod.mk.injEq] at h; exact Or.inl ⟨by rw [← h.1]; simp, h.2.symm⟩
      · simp only [Prod.mk.injEq] at h
        obtain ⟨m1, m2⟩ := mkdir_spec hnone (Stat_ok.mpr hpar)
        rw [← h.2]
        exact Or.inr ⟨h.1.symm, hnone, m1, m2⟩
    · simp only [Prod.mk.injEq] at h; exact Or.inl ⟨by rw [← h.1]; simp, h.2.symm⟩
    · simp only [Prod.mk.injEq] at h; exact Or.inl ⟨by rw [← h.1]; simp, h.2.symm⟩

theorem mkdirAllRev_spec (r fail : Bool) (l : List String) :
    ∀ (fs fs1 : FS) (e : Option Error), mkdirAllRev r fail l fs = (e, fs1) →
      (∀ q n, Stat fs q = some n → Stat fs1 q = some n) ∧
      (∀ q : Path, (∀ l1, l1 <:+ l → q ≠ ⟨r, l1.reverse⟩) → Stat fs1 q = Stat fs q) ∧
      (e = none → Stat fs1 ⟨r, l.reverse⟩ = some Node.dir) := by
  induction l with
  | nil =>
    intro fs fs1 e h
    simp only [mkdirAllRev, Prod.mk.injEq] at h
    obtain ⟨-, rfl⟩ := h
    exact ⟨fun _ _ hq => hq, fun _ _ => rfl, fun _ => Stat_nil _ _⟩
  | cons x rest ih =>
    intro fs fs1 e h
    rw [mkdirAllRev] at h
    split at h
    · rename_i hdir
      simp only [Prod.mk.injEq] at h
      obtain ⟨-, rfl⟩ := h
      exact ⟨fun _ _ hq => hq, fun _ _ => rfl, fun _ => hdir⟩
    · simp only [Prod.mk.injEq] at h
      obtain ⟨rfl, rfl⟩ := h
      exact ⟨fun _ _ hq => hq, fun _ _ => rfl, fun he => by simp at he⟩
    · generalize hrec : mkdirAllRev r fail rest fs = res at h
      obtain ⟨e1, fs2⟩ := res
      obtain ⟨ih1, ih2, -⟩ := ih fs fs2 e1 hrec
      have hsub : ∀ q : Path, (∀ l1, l1 <:+ x :: rest → q ≠ ⟨r, l1.reverse⟩) →
          ∀ l1, l1 <:+ rest → q ≠ ⟨r, l1.reverse⟩ := fun q hq l1 hl1 =>
        hq l1 (hl1.trans (List.suffix_cons x rest))
      cases e1 with
      | some err =>
        simp only [Prod.mk.injEq] at h
        obtain ⟨rfl, rfl⟩ := h
        exact ⟨ih1, fun q hq => ih2 q (hsub q hq), fun he => by simp at he⟩
      | none =>
        simp only at h
        generalize hmk : Mkdir fs2 ⟨r, (x :: rest).reverse⟩ fail = res2 at h
        obtain ⟨e2, fs3⟩ := res2
        have hfs : fs1 = fs3 := by
          cases e2 with
          | none => simp only [Prod.mk.injEq] at h; exact h.2.symm
          | some err => simp only at h; split at h <;>
              (simp only [Prod.mk.injEq] at h; exact h.2.symm)
        subst hfs
        have hlast : e = none → Stat fs1 ⟨r, (x :: rest).reverse⟩ = some Node.dir := by
          intro he
          subst he
          cases e2 with
          | none =>
            rcases Mkdir_cases hmk with ⟨h1, -⟩ | ⟨-, -, h3, -⟩
            · exact absurd rfl h1
            · exact h3
          | some err =>
            simp only at h
            split at h
            · assumption
            · simp at h
        rcases Mkdir_cases hmk with ⟨-, h1⟩ | ⟨-, h2, -, h4⟩
        · subst h1
          exact ⟨ih1, fun q hq => ih2 q (hsub q hq), hlast⟩
        · refine ⟨?_, ?_, hlast⟩
          · intro q n hq
            have hq2 := ih1 q n hq
            have hne : q ≠ (⟨r, (x :: rest).reverse⟩ : Path) := by
              intro hh; rw [hh, h2] at hq2; simp at hq2
            rw [h4 q hne]; exact hq2
          · intro q hq
            have hne : q ≠ (⟨r, (x :: rest).reverse⟩ : Path) :=
              fun hh => hq (x :: rest) (List.suffix_refl _) hh
            rw [h4 q hne]; exact ih2 q (hsub q hq)

theorem MkdirAll_ok_dir {fs fs1 : FS} {p : Path} {fail : Bool}
    (h : MkdirAll fs p fail = (none, fs1)) : Stat fs1 p = some Node.dir := by
  have := (mkdirAllRev_spec p.rooted fail p.elems.reverse fs fs1 none h).2.2 rfl
  simpa using this

theorem MkdirAll_mono {fs fs1 : FS} {p : Path} {fail : Bool} {e : Option Error}
    (h : MkdirAll fs p fail = (e, fs1)) (q : Path) (n : Node) (hq : Stat fs q = some n) :
    Stat fs1 q = some n :=
  (mkdirAllRev_spec p.rooted fail p.elems.reverse fs fs1 e h).1 q n hq

theorem MkdirAll_frame {fs fs1 : FS} {p : Path} {fail : Bool} {e : Option Error}
    (h : MkdirAll fs p fail = (e, fs1)) (q : Path)
    (hq : ¬ (q.rooted = p.rooted ∧ q.elems <+: p.elems)) : Stat fs1 q = Stat fs q := by
  refine (mkdirAllRev_spec p.rooted fail p.elems.reverse fs fs1 e h).2.1 q ?_
  intro l1 hl1 hh
  apply hq
  subst hh
  refine ⟨rfl, ?_⟩
  have := List.reverse_prefix.mpr hl1
  simpa using this

theorem MkdirAll_of_dir {fs : FS} {p : Path} {fail : Bool}
    (h : Stat fs p = some Node.dir) : MkdirAll fs p fail = (none, fs) := by
  unfold MkdirAll
  cases hl : p.elems.reverse with
  | nil => rfl
  | cons x rest =>
    rw [mkdirAllRev]
    have : (⟨p.rooted, (x :: rest).reverse⟩ : Path) = p := by
      rw [← hl]; simp
    rw [this, h]

theorem WriteFile_eq {fs : FS} {p : Path} {data : String}
    (h1 : Stat fs p ≠ some Node.dir) (h2 : Stat fs p.parent = some Node.dir) :
    WriteFile fs p data none = (none, fs.set p (Node.file data)) := by
  unfold WriteFile
  split
  · rename_i hd; exact absurd hd h1
  · rw [Stat_ok.mp h2]

theorem Rename_eq {fs : FS} {old new : Path} {data : String}
    (h1 : Stat fs old = some (Node.file data)) (h2 : Stat fs new ≠ some Node.dir)
    (h3 : Stat fs new.parent = some Node.dir) :
    Rename fs old new false
      = (none, ((fs.erase old).erase new).set new (Node.file data)) := by
  unfold Rename
  rw [Stat_ok.mp h1]
  simp only
  cases hn : Stat fs new with
  | none => simp [Stat_ok.mp h3]
  | some n =>
    cases n with
    | dir => exact absurd hn h2
    | file x => simp [Stat_ok.mp h3]

/-! ## Lemmas on the driver -/

theorem append_eq_self {l ext : String} (h : l ++ ext = l) : ext = "" := by
  have h1 := congrArg String.length h
  rw [String.length_append] at h1
  have h2 : ext.length = 0 := by omega
  apply String.ext
  exact List.length_eq_zero.mp h2

theorem Path.add_ne (p : Path) (ext : String) (hext : ext ≠ "") : p.add ext ≠ p := by
  intro h
  unfold Path.add at h
  cases hl : p.elems.reverse with
  | nil =>
    rw [hl] at h
    have h1 := congrArg Path.elems h
    have h2 : p.elems = [] := by simpa using hl
    rw [h2] at h1
    simp at h1
  | cons l r =>
    rw [hl] at h
    have h1 := congrArg (fun q => q.elems.reverse) h
    simp only [List.reverse_reverse, hl, List.cons.injEq, and_true] at h1
    exact hext (append_eq_self h1)

theorem Write_ok {V : Type} {c : Codec V} {d : Driver} {fs fs1 : FS} {io : Faults}
    {collection resource : String} {v : V}
    (h : Driver.Write c d fs io collection resource v = (none, fs1)) :
    ∃ fsm b fsw, MkdirAll fs (d.collDir collection) io.mkdir = (none, fsm) ∧
      c.MarshalIndent v = Except.ok b ∧
      WriteFile fsm (d.tmpPath collection resource) (b ++ "\n") io.write = (none, fsw) ∧
      Rename fsw (d.tmpPath collection resource) (d.fnlPath collection resource) io.rename
        = (none, fs1) := by
  unfold Driver.Write at h
  simp only at h
  generalize hmk : MkdirAll fs (d.dir.Join [collection]) io.mkdir = r1 at h
  obtain ⟨e1, fsm⟩ := r1
  cases e1 with
  | some err => simp at h
  | none =>
    simp only at h
    cases hb : c.MarshalIndent v with
    | error err => rw [hb] at h; simp at h
    | ok b =>
      rw [hb] at h
      simp only at h
      generalize hw : WriteFile fsm (((d.dir.Join [collection]).Join [resource ++ ".json"]).add
        ".tmp") (b ++ "\n") io.write = r2 at h
      obtain ⟨e2, fsw⟩ := r2
      cases e2 with
      | some err => simp at h
      | none => exact ⟨fsm, b, fsw, hmk, rfl, hw, h⟩

/-- What a successful `Write` leaves: the final path holds the serialized
value, the temp path is gone, the directories it used are still there. -/
theorem Write_ok_state {V : Type} {c : Codec V} {d : Driver} {fs fs1 : FS} {io : Faults}
    {collection resource : String} {v : V}
    (h : Driver.Write c d fs io collection resource v = (none, fs1)) :
    ∃ b, ∃ R : FS, c.MarshalIndent v = Except.ok b ∧
      fs1 = (d.fnlPath collection resource, Node.file (b ++ "\n")) :: R ∧
      FS.get R (d.fnlPath collection resource) = none ∧
      FS.get R (d.tmpPath collection resource) = none ∧
      Stat fs1 (d.collDir collection) = some Node.dir ∧
      Stat fs1 (d.fnlPath collection resource).parent = some Node.dir ∧
      Stat fs1 (d.tmpPath collection resource).parent = some Node.dir ∧
      Stat fs1 (d.fnlPath collection resource) = some (Node.file (b ++ "\n")) ∧
      Stat fs1 (d.tmpPath collection resource) = none := by
  obtain ⟨fsm, b, fsw, hmk, hb, hw, hr⟩ := Write_ok h
  obtain ⟨hw1, hw2, hw3⟩ := WriteFile_ok hw
  obtain ⟨sw1, sw2⟩ := set_file_spec (b ++ "\n") hw1 hw2
  rw [← hw3] at sw1 sw2
  obtain ⟨data, hr1, hr2, hr3, hr4⟩ := Rename_ok hr
  have hdata : data = b ++ "\n" := by
    rw [sw1] at hr1
    simpa using hr1.symm
  subst hdata
  obtain ⟨rs1, rs2, rs3⟩ := rename_spec hr1 hr2 hr3
  rw [← hr4] at rs1 rs2 rs3
  have hne : d.tmpPath collection resource ≠ d.fnlPath collection resource :=
    Path.add_ne _ _ (by decide)
  have hdirm := MkdirAll_ok_dir hmk
  have key : ∀ q, Stat fsw q = some Node.dir → Stat fs1 q = some Node.dir := by
    intro q hq
    have hq1 : q ≠ d.tmpPath collection resource := by
      intro hh; rw [hh, sw1] at hq; simp at hq
    have hq2 : q ≠ d.fnlPath collection resource := fun hh => hr2 (hh ▸ hq)
    rw [rs2 q hq1 hq2]; exact hq
  have key2 : ∀ q, Stat fsm q = some Node.dir → Stat fs1 q = some Node.dir := by
    intro q hq
    have hq1 : q ≠ d.tmpPath collection resource := fun hh => hw1 (hh ▸ hq)
    exact key q (by rw [sw2 q hq1]; exact hq)
  refine ⟨b, ((fsw.erase (d.tmpPath collection resource)).erase
    (d.fnlPath collection resource)).erase (d.fnlPath collection resource), hb, ?_,
    get_erase_self _ _, ?_, key2 _ hdirm, key _ hr3, key2 _ hw2, rs1, rs3 hne⟩
  · rw [hr4]; rfl
  · rw [get_erase_ne _ _ _ (Ne.symm hne), get_erase_ne _ _ _ (Ne.symm hne), get_erase_self]

theorem Write_eq {V : Type} {c : Codec V} {d : Driver} {fs fsw : FS}
    {collection resource : String} {v : V} {b : String}
    (hmk : Stat fs (d.collDir collection) = some Node.dir)
    (hb : c.MarshalIndent v = Except.ok b)
    (hw : WriteFile fs (d.tmpPath collection resource) (b ++ "\n") none = (none, fsw)) :
    Driver.Write c d fs Faults.none collection resource v
      = Rename fsw (d.tmpPath collection resource) (d.fnlPath collection resource) false := by
  have h1 : MkdirAll fs (d.dir.Join [collection]) false = (none, fs) := MkdirAll_of_dir hmk
  have h2 : WriteFile fs (((d.dir.Join [collection]).Join [resource ++ ".json"]).add ".tmp")
      (b ++ "\n") none = (none, fsw) := hw
  unfold Driver.Write
  simp only [Faults.none, h1, hb, h2]
  rfl

/-! ## Lemmas on paths -/

theorem splitAux_noslash (cs acc : List Char) (h : '/' ∉ cs) :
    splitAux cs acc = [String.mk (acc.reverse ++ cs)] := by
  induction cs generalizing acc with
  | nil => simp [splitAux]
  | cons c cs ih =>
    have hc : c ≠ '/' := fun hh => h (by simp [hh])
    have hcs : '/' ∉ cs := fun hh => h (by simp [hh])
    rw [splitAux, if_neg hc, ih _ hcs]
    simp

theorem pieces_noslash (s : String) (h : '/' ∉ s.data) : pieces s = [s] := by
  unfold pieces
  rw [splitAux_noslash _ _ h]
  simp

theorem CleanStack_of_dots (st : List String) (h : ∀ x ∈ st, x = "..") :
    CleanStack false st := by
  cases st with
  | nil => trivial
  | cons t rest =>
    exact Or.inr ⟨h t (by simp), rfl, fun x hx => h x (by simp [hx])⟩

theorem cleanStep_ok (r : Bool) (st : List String) (e : String) (h : CleanStack r st) :
    CleanStack r (cleanStep r st e) := by
  unfold cleanStep
  by_cases h1 : e = "" ∨ e = "."
  · rw [if_pos h1]; exact h
  · rw [if_neg h1]
    by_cases h2 : e = ".."
    · rw [if_pos h2]
      cases st with
      | nil =>
        cases r with
        | true => trivial
        | false => exact Or.inr ⟨rfl, rfl, by simp⟩
      | cons t rest =>
        simp only
        by_cases h3 : t = ".."
        · rw [if_pos h3]
          rcases h with ⟨-, -, hh, -⟩ | ⟨-, hr, hall⟩
          · exact absurd h3 hh
          · refine Or.inr ⟨rfl, hr, ?_⟩
            intro x hx
            rcases List.mem_cons.mp hx with hx1 | hx1
            · rw [hx1]; exact h3
            · exact hall x hx1
        · rw [if_neg h3]
          rcases h with ⟨-, -, -, hh⟩ | ⟨ht, -, -⟩
          · exact hh
          · exact absurd ht h3
    · rw [if_neg h2]
      push_neg at h1
      exact Or.inl ⟨h1.1, h1.2, h2, h⟩

theorem foldl_clean_ok (r : Bool) (xs st : List String) (h : CleanStack r st) :
    CleanStack r (xs.foldl (cleanStep r) st) := by
  induction xs generalizing st with
  | nil => exact h
  | cons x xs ih => exact ih _ (cleanStep_ok r st x h)

theorem foldl_clean_self (r : Bool) (st : List String) (h : CleanStack r st) :
    st.reverse.foldl (cleanStep r) [] = st := by
  induction st with
  | nil => rfl
  | cons t rest ih =>
    rw [List.reverse_cons, List.foldl_append]
    rcases h with ⟨h1, h2, h3, h4⟩ | ⟨h1, h2, h3⟩
    · rw [ih h4]
      simp [cleanStep, h1, h2, h3]
    · subst h2
      rw [ih (CleanStack_of_dots rest h3)]
      subst h1
      cases rest with
      | nil => simp [cleanStep]
      | cons x rest1 =>
        have hx : x = ".." := h3 x (by simp)
        subst hx
        simp [cleanStep]

theorem cleanElems_append (r : Bool) (xs ys : List String) :
    cleanElems r (cleanElems r xs ++ ys) = cleanElems r (xs ++ ys) := by
  unfold cleanElems
  rw [List.foldl_append, List.foldl_append,
    foldl_clean_self r _ (foldl_clean_ok r xs [] trivial)]

theorem cleanElems_snoc (r : Bool) (xs : List String) (c : String)
    (h1 : c ≠ "") (h2 : c ≠ ".") (h3 : c ≠ "..") :
    cleanElems r (xs ++ [c]) = cleanElems r xs ++ [c] := by
  unfold cleanElems
  rw [List.foldl_append]
  simp [cleanStep, h1, h2, h3]

theorem cleanElems_snoc_empty (r : Bool) (xs : List String) :
    cleanElems r (xs ++ [""]) = cleanElems r xs := by
  unfold cleanElems
  rw [List.foldl_append]
  simp [cleanStep]

theorem json_data (res ext : String) : (res ++ ext).data = res.data ++ ext.data :=
  String.data_append res ext

theorem json_noslash (res : String) (h : '/' ∉ res.data) : '/' ∉ (res ++ ".json").data := by
  rw [json_data]
  intro hh
  rcases List.mem_append.mp hh with h1 | h1
  · exact h h1
  · revert h1; decide

theorem json_length (res : String) : (res ++ ".json").length = res.length + 5 := by
  rw [String.length_append]; rfl

theorem json_ne (res : String) :
    res ++ ".json" ≠ "" ∧ res ++ ".json" ≠ "." ∧ res ++ ".json" ≠ ".." := by
  have h := json_length res
  refine ⟨?_, ?_, ?_⟩ <;>
    (intro hh; rw [hh] at h; revert h; simp only [String.length]; simp)

theorem collDir_eq (d : Driver) (collection : String) :
    d.collDir collection
      = ⟨d.dir.rooted, cleanElems d.dir.rooted (d.dir.elems ++ pieces collection)⟩ := by
  simp [Driver.collDir, Path.Join]

theorem fnlPath_eq (d : Driver) (collection resource : String) (h : '/' ∉ resource.data) :
    d.fnlPath collection resource
      = ⟨d.dir.rooted, (d.collDir collection).elems ++ [resource ++ ".json"]⟩ := by
  obtain ⟨h1, h2, h3⟩ := json_ne resource
  simp only [Driver.fnlPath, Path.Join, List.flatMap_cons, List.flatMap_nil, List.append_nil,
    pieces_noslash _ (json_noslash resource h), collDir_eq]
  rw [cleanElems_append, cleanElems_snoc _ _ _ h1 h2 h3]

theorem record_eq (d : Driver) (collection resource : String) (h : PlainName resource) :
    d.record collection resource
      = ⟨d.dir.rooted, (d.collDir collection).elems ++ [resource]⟩ := by
  obtain ⟨h0, h1, h2, h3⟩ := h
  simp only [Driver.record, Path.Join, List.flatMap_cons, List.flatMap_nil, List.append_nil,
    pieces_noslash _ h0, collDir_eq]
  rw [← List.append_assoc, cleanElems_snoc _ _ _ h1 h2 h3]

theorem add_snoc (r : Bool) (xs : List String) (c ext : String) :
    (⟨r, xs ++ [c]⟩ : Path).add ext = ⟨r, xs ++ [c ++ ext]⟩ := by
  simp [Path.add]

theorem record_json (d : Driver) (collection resource : String) (h : PlainName resource) :
    (d.record collection resource).add ".json" = d.fnlPath collection resource := by
  rw [record_eq d _ _ h, fnlPath_eq d _ _ h.1, add_snoc]

theorem add_cases {p : Path} (ext : String) (h : isAnchor p = false) :
    ∃ x, p = ⟨p.rooted, p.parent.elems ++ [x]⟩ ∧
      p.add ext = ⟨p.rooted, p.parent.elems ++ [x ++ ext]⟩ := by
  obtain ⟨x, hx⟩ := not_anchor_cases h
  refine ⟨x, hx, ?_⟩
  have : p.add ext = (⟨p.rooted, p.parent.elems ++ [x]⟩ : Path).add ext := by rw [← hx]
  rw [this, add_snoc]

theorem osStat_err_kind {fs : FS} {p : Path} {err : Error}
    (h : osStat fs p = Except.error err) : err = Error.notExist ∨ err = Error.notDir := by
  obtain ⟨r, xs⟩ := p
  induction xs using List.reverseRecOn generalizing err with
  | nil => rw [osStat_nil] at h; simp at h
  | append_singleton ys y ih =>
    rw [osStat_snoc] at h
    cases h1 : osStat fs ⟨r, ys⟩ with
    | error e1 =>
      rw [h1] at h
      simp only [Except.error.injEq] at h
      rw [← h]; exact ih h1
    | ok n =>
      rw [h1] at h
      cases n with
      | file data => simp only [Except.error.injEq] at h; exact Or.inr h.symm
      | dir =>
        simp only at h
        cases h2 : fs.node ⟨r, ys ++ [y]⟩ with
        | none => rw [h2] at h; simp only [Except.error.injEq] at h; exact Or.inl h.symm
        | some m => rw [h2] at h; simp at h

theorem stat_ok_of_self {fs : FS} {p : Path} {n : Node}
    (h : Stat fs p = some n) : stat fs p = Except.ok n := by
  unfold stat
  rw [Stat_ok.mp h]

/-- The two paths that `stat` tries lie in the same directory: both fail in
the same way when that directory cannot be entered. -/
theorem osStat_add_of_parent {fs : FS} {p : Path} (ext : String) (ha : isAnchor p = false) :
    (∀ err, osStat fs p.parent = Except.error err →
      osStat fs p = Except.error err ∧ osStat fs (p.add ext) = Except.error err) ∧
    (∀ data, osStat fs p.parent = Except.ok (Node.file data) →
      osStat fs p = Except.error Error.notDir ∧
        osStat fs (p.add ext) = Except.error Error.notDir) ∧
    (osStat fs p.parent = Except.ok Node.dir →
      (osStat fs p = Except.error Error.notExist ∨ ∃ n, osStat fs p = Except.ok n) ∧
      (osStat fs (p.add ext) = Except.error Error.notExist ∨
        ∃ n, osStat fs (p.add ext) = Except.ok n)) := by
  obtain ⟨x, hx, hadd⟩ := add_cases ext ha
  have hp : ∀ z, osStat fs ⟨p.rooted, p.parent.elems ++ [z]⟩
      = match osStat fs p.parent with
        | Except.ok Node.dir =>
          match fs.node ⟨p.rooted, p.parent.elems ++ [z]⟩ with
          | some n => Except.ok n
          | none => Except.error Error.notExist
        | Except.ok (Node.file _) => Except.error Error.notDir
        | Except.error err => Except.error err := fun z => osStat_snoc fs _ _ z
  have h1 := hp x
  have h2 := hp (x ++ ext)
  rw [← hx] at h1
  rw [← hadd] at h2
  refine ⟨?_, ?_, ?_⟩
  · intro err he
    rw [he] at h1 h2
    exact ⟨h1, h2⟩
  · intro data he
    rw [he] at h1 h2
    exact ⟨h1, h2⟩
  · intro he
    rw [he] at h1 h2
    simp only at h1 h2
    constructor
    · cases hn : fs.node p with
      | none => rw [hn] at h1; exact Or.inl h1
      | some n => rw [hn] at h1; exact Or.inr ⟨n, h1⟩
    · cases hn : fs.node (p.add ext) with
      | none => rw [hn] at h2; exact Or.inl h2
      | some n => rw [hn] at h2; exact Or.inr ⟨n, h2⟩

theorem stat_ok_of_json {fs : FS} {p : Path} {n : Node}
    (h : Stat fs (p.add ".json") = some n) : ∃ m, stat fs p = Except.ok m := by
  by_cases ha : isAnchor p = true
  · exact ⟨Node.dir, stat_ok_of_self (Stat_anchor fs p ha)⟩
  · have ha1 : isAnchor p = false := by simpa using ha
    obtain ⟨c1, c2, c3⟩ := @osStat_add_of_parent fs p ".json" ha1
    rw [Stat_ok] at h
    cases hpar : osStat fs p.parent with
    | error err => rw [(c1 err hpar).2] at h; simp at h
    | ok m =>
      cases m with
      | file data => rw [(c2 data hpar).2] at h; simp at h
      | dir =>
        rcases (c3 hpar).1 with h1 | ⟨k, h1⟩
        · exact ⟨n, by unfold stat; rw [h1]; exact h⟩
        · exact ⟨k, by unfold stat; rw [h1]⟩

/-- Where `stat` fails: with the not-exist error when the directory of the
path exists, with the error of that directory otherwise. -/
theorem stat_fail {fs : FS} {p : Path} (h1 : Stat fs p = none)
    (h2 : Stat fs (p.add ".json") = none) :
    (Stat fs p.parent = some Node.dir → stat fs p = Except.error Error.notExist) ∧
    (stat fs p = Except.error Error.notExist ∨ stat fs p = Except.error Error.notDir) := by
  have ha := Stat_none_not_anchor h1
  obtain ⟨c1, c2, c3⟩ := @osStat_add_of_parent fs p ".json" ha
  have hno : ∀ m, osStat fs p ≠ Except.ok m := fun m hm => by
    rw [Stat_ok.mpr hm] at h1; simp at h1
  have hno2 : ∀ m, osStat fs (p.add ".json") ≠ Except.ok m := fun m hm => by
    rw [Stat_ok.mpr hm] at h2; simp at h2
  cases hpar : osStat fs p.parent with
  | error err =>
    have hs : stat fs p = Except.error err := by
      unfold stat
      rw [(c1 err hpar).1]
      rcases osStat_err_kind hpar with he | he
      · subst he; simp only; exact (c1 _ hpar).2
      · subst he; rfl
    refine ⟨fun hd => ?_, ?_⟩
    · rw [Stat_ok, hpar] at hd; simp at hd
    · rcases osStat_err_kind hpar with he | he
      · subst he; exact Or.inl hs
      · subst he; exact Or.inr hs
  | ok m =>
    cases m with
    | file data =>
      have hs : stat fs p = Except.error Error.notDir := by
        unfold stat
        rw [(c2 data hpar).1]
      refine ⟨fun hd => ?_, Or.inr hs⟩
      rw [Stat_ok, hpar] at hd; simp at hd
    | dir =>
      have hs : stat fs p = Except.error Error.notExist := by
        unfold stat
        rcases (c3 hpar).1 with e1 | ⟨k, e1⟩
        · rw [e1]
          simp only
          rcases (c3 hpar).2 with e2 | ⟨k, e2⟩
          · exact e2
          · exact absurd e2 (hno2 k)
        · exact absurd e1 (hno k)
      exact ⟨fun _ => hs, Or.inl hs⟩

theorem stat_err_cases {fs : FS} {p : Path} {err : Error}
    (h : stat fs p = Except.error err) :
    Stat fs p = none ∧ (err = Error.notExist ∨ err = Error.notDir) := by
  unfold stat at h
  cases h1 : osStat fs p with
  | ok m => rw [h1] at h; simp at h
  | error e =>
    refine ⟨Stat_none.mpr ⟨e, h1⟩, ?_⟩
    rw [h1] at h
    rcases osStat_err_kind h1 with he | he
    · subst he
      simp only at h
      exact osStat_err_kind h
    · subst he
      simp only [Except.error.injEq] at h
      exact Or.inr h.symm

theorem Read_eq {V : Type} (c : Codec V) (d : Driver) (fs : FS)
    (collection resource : String) {m : Node}
    (h : stat fs (d.record collection resource) = Except.ok m) :
    Driver.Read c d fs collection resource
      = match ReadFile fs ((d.record collection resource).add ".json") with
        | Except.error err => Except.error err
        | Except.ok b => c.Unmarshal b := by
  have h1 : stat fs (d.dir.Join [collection, resource]) = Except.ok m := h
  unfold Driver.Read
  simp only [h1]
  rfl

theorem Read_err {V : Type} (c : Codec V) (d : Driver) (fs : FS)
    (collection resource : String) {err : Error}
    (h : stat fs (d.record collection resource) = Except.error err) :
    Driver.Read c d fs collection resource = Except.error err := by
  have h1 : stat fs (d.dir.Join [collection, resource]) = Except.error err := h
  unfold Driver.Read
  simp only [h1]

theorem Write_ok_final {V : Type} {c : Codec V} {d : Driver} {fs fs1 : FS} {io : Faults}
    {collection resource : String} {v : V}
    (h : Driver.Write c d fs io collection resource v = (none, fs1)) :
    ∃ b, c.MarshalIndent v = Except.ok b ∧
      Stat fs1 (d.fnlPath collection resource) = some (Node.file (b ++ "\n")) := by
  obtain ⟨b, R, hb, -, -, -, -, -, -, hst, -⟩ := Write_ok_state h
  exact ⟨b, hb, hst⟩

theorem fnlPath_not_above (d : Driver) (collection resource : String)
    (h : '/' ∉ resource.data) :
    ¬ ((d.fnlPath collection resource).rooted = (d.collDir collection).rooted ∧
      (d.fnlPath collection resource).elems <+: (d.collDir collection).elems) := by
  rw [fnlPath_eq d _ _ h]
  rintro ⟨-, hp⟩
  have := hp.length_le
  simp at this

theorem Write_err_final {V : Type} {c : Codec V} {d : Driver} {fs fs1 : FS} {io : Faults}
    {collection resource : String} {v : V} {err : Error}
    (hres : '/' ∉ resource.data)
    (h : Driver.Write c d fs io collection resource v = (some err, fs1)) :
    Stat fs1 (d.fnlPath collection resource) = Stat fs (d.fnlPath collection resource) := by
  have hne : d.tmpPath collection resource ≠ d.fnlPath collection resource :=
    Path.add_ne _ _ (by decide)
  unfold Driver.Write at h
  simp only at h
  generalize hmk : MkdirAll fs (d.dir.Join [collection]) io.mkdir = r1 at h
  obtain ⟨e1, fsm⟩ := r1
  have hfm : Stat fsm (d.fnlPath collection resource)
      = Stat fs (d.fnlPath collection resource) :=
    MkdirAll_frame hmk _ (fnlPath_not_above d collection resource hres)
  cases e1 with
  | some err1 =>
    simp only [Prod.mk.injEq] at h
    rw [← h.2]; exact hfm
  | none =>
    simp only at h
    cases hb : c.MarshalIndent v with
    | error err1 =>
      rw [hb] at h
      simp only [Prod.mk.injEq] at h
      rw [← h.2]; exact hfm
    | ok b =>
      rw [hb] at h
      simp only at h
      generalize hw : WriteFile fsm (((d.dir.Join [collection]).Join [resource ++ ".json"]).add
        ".tmp") (b ++ "\n") io.write = r2 at h
      obtain ⟨e2, fsw⟩ := r2
      have hfw : Stat fsw (d.fnlPath collection resource)
          = Stat fsm (d.fnlPath collection resource) := WriteFile_frame hw _ hne
      cases e2 with
      | some err2 =>
        simp only [Prod.mk.injEq] at h
        rw [← h.2, hfw]; exact hfm
      | none =>
        simp only at h
        rw [Rename_err h, hfw]; exact hfm

theorem record_of_json (d : Driver) (collection resource : String)
    (h : '/' ∉ resource.data) :
    d.record collection (resource ++ ".json") = d.fnlPath collection resource := by
  obtain ⟨h1, h2, h3⟩ := json_ne resource
  rw [fnlPath_eq d _ _ h]
  simp only [Driver.record, Path.Join, List.flatMap_cons, List.flatMap_nil, List.append_nil,
    pieces_noslash _ (json_noslash resource h), collDir_eq]
  rw [← List.append_assoc, cleanElems_snoc _ _ _ h1 h2 h3]

theorem stat_ok_of_exists {fs : FS} {p : Path}
    (h : Stat fs p ≠ none ∨ Stat fs (p.add ".json") ≠ none) :
    ∃ m, stat fs p = Except.ok m := by
  cases h1 : Stat fs p with
  | some m => exact ⟨m, stat_ok_of_self h1⟩
  | none =>
    rcases h with h | h
    · exact absurd h1 h
    · cases h2 : Stat fs (p.add ".json") with
      | none => exact absurd h2 h
      | some m => exact stat_ok_of_json h2

/-! ## Lemmas on `ReadAll` -/

theorem readEntries_forall (fs : FS) (dir : Path) (names : List String) :
    ∀ records, readEntries fs dir names = Except.ok records →
      List.Forall₂ (fun name b => ReadFile fs (dir.Join [name]) = Except.ok b)
        names records := by
  induction names with
  | nil =>
    intro records h
    simp only [readEntries, Except.ok.injEq] at h
    subst h
    exact List.Forall₂.nil
  | cons name rest ih =>
    intro records h
    rw [readEntries] at h
    cases h1 : ReadFile fs (dir.Join [name]) with
    | error err => rw [h1] at h; simp at h
    | ok b =>
      rw [h1] at h
      simp only at h
      cases h2 : readEntries fs dir rest with
      | error err => rw [h2] at h; simp at h
      | ok recs =>
        rw [h2] at h
        simp only [Except.ok.injEq] at h
        subst h
        exact List.Forall₂.cons h1 (ih recs h2)

theorem readEntries_ok (fs : FS) (dir : Path) (names : List String)
    (h : ∀ name ∈ names, ∃ b, ReadFile fs (dir.Join [name]) = Except.ok b) :
    ∃ records, readEntries fs dir names = Except.ok records := by
  induction names with
  | nil => exact ⟨[], rfl⟩
  | cons name rest ih =>
    obtain ⟨b, hb⟩ := h name (by simp)
    obtain ⟨recs, hrecs⟩ := ih (fun n hn => h n (by simp [hn]))
    exact ⟨b :: recs, by simp [readEntries, hb, hrecs]⟩

theorem readEntries_err (fs : FS) (dir : Path) (names : List String)
    (h : ∃ name ∈ names, ∃ err, ReadFile fs (dir.Join [name]) = Except.error err) :
    ∃ err, readEntries fs dir names = Except.error err ∧
      ∃ name ∈ names, ReadFile fs (dir.Join [name]) = Except.error err := by
  induction names with
  | nil => obtain ⟨name, hn, -⟩ := h; simp at hn
  | cons name rest ih =>
    cases h1 : ReadFile fs (dir.Join [name]) with
    | error err => exact ⟨err, by simp [readEntries, h1], name, by simp, h1⟩
    | ok b =>
      obtain ⟨n, hn, err, herr⟩ := h
      have hn2 : n ∈ rest := by
        rcases List.mem_cons.mp hn with hh | hh
        · subst hh; rw [h1] at herr; simp at herr
        · exact hh
      obtain ⟨err2, he2, n2, hn2, hr2⟩ := ih ⟨n, hn2, err, herr⟩
      exact ⟨err2, by simp [readEntries, h1, he2], n2, by simp [hn2], hr2⟩

theorem ReadAll_eq (d : Driver) (fs : FS) (collection : String) (hc : collection ≠ "")
    (hdir : Stat fs (d.collDir collection) = some Node.dir) :
    d.ReadAll fs collection
      = readEntries fs (d.collDir collection) (childNames fs (d.collDir collection)) := by
  have h1 : stat fs (d.dir.Join [collection]) = Except.ok Node.dir := stat_ok_of_self hdir
  have h2 : ReadDir fs (d.dir.Join [collection])
      = Except.ok (childNames fs (d.dir.Join [collection])) := by
    have h3 : osStat fs (d.dir.Join [collection]) = Except.ok Node.dir := Stat_ok.mp hdir
    simp [ReadDir, h3]
  unfold Driver.ReadAll
  rw [if_neg hc]
  simp only [h1, h2]
  rfl

theorem mem_insertName (x y : String) (l : List String) :
    y ∈ insertName x l ↔ y = x ∨ y ∈ l := by
  induction l with
  | nil => simp [insertName]
  | cons z zs ih =>
    rw [insertName]
    by_cases h1 : x < z
    · simp [h1]
    · rw [if_neg h1]
      by_cases h2 : x = z
      · subst h2; simp
      · rw [if_neg h2]
        simp only [List.mem_cons, ih]
        tauto

theorem mem_childNames_head (r : Bool) (xs : List String) (x : String) (n : Node) (R : FS)
    (hx : x ≠ "..") : x ∈ childNames ((⟨r, xs ++ [x]⟩, n) :: R) ⟨r, xs⟩ := by
  have ha : isAnchor ⟨r, xs ++ [x]⟩ = false := by
    simp [isAnchor, hx]
  unfold childNames
  rw [List.foldr_cons]
  simp only [List.dropLast_concat, ha, List.getLast?_append, List.getLast?_singleton]
  simp [mem_insertName]

theorem mem_of_forall₂ {names records : List String} {P : String → String → Prop}
    (h : List.Forall₂ P names records) {name : String} (hn : name ∈ names) :
    ∃ b ∈ records, P name b := by
  induction h with
  | nil => simp at hn
  | cons hab _ ih =>
    rcases List.mem_cons.mp hn with hh | hh
    · subst hh; exact ⟨_, by simp, hab⟩
    · obtain ⟨b, hb, hp⟩ := ih hh
      exact ⟨b, by simp [hb], hp⟩

/-! ## Lemmas on `Delete` -/

theorem RemoveAll_out (fs : FS) (p q : Path) (h : p.within q = false) :
    Stat (RemoveAll fs p).2 q = Stat fs q := by
  unfold RemoveAll
  by_cases hp : p = ⟨false, []⟩
  · rw [if_pos hp]
  · rw [if_neg hp]
    refine Stat_congr (fun s hs => node_filter_out fs p s ?_)
    by_contra hh
    have := within_trans (by simpa using hh) hs
    rw [h] at this
    simp at this

theorem RemoveAll_in (fs : FS) (p q : Path) (hp : p ≠ ⟨false, []⟩)
    (h : p.within q = true) (ha : isAnchor q = false) :
    Stat (RemoveAll fs p).2 q = none := by
  unfold RemoveAll
  rw [if_neg hp]
  exact Stat_none_of_node (node_filter_in fs p q h ha)

theorem isRooted_plain (s : String) (h : '/' ∉ s.data) : isRooted s = false := by
  unfold isRooted
  cases hd : s.data with
  | nil => rfl
  | cons c cs =>
    have hc : c ≠ '/' := by
      intro hh; apply h; rw [hd, hh]; simp
    simp [hc]

theorem target_plain (d : Driver) (collection resource : String)
    (hc : PlainName collection) (hr : PlainName resource) :
    d.target collection resource
      = ⟨d.dir.rooted, (d.collDir collection).elems ++ [resource]⟩ := by
  obtain ⟨c0, c1, c2, c3⟩ := hc
  obtain ⟨r0, r1, r2, r3⟩ := hr
  have hj : Join [collection, resource] = ⟨false, [collection, resource]⟩ := by
    simp only [Join, List.dropWhile_cons, c1, decide_False, Bool.false_eq_true, if_false,
      List.flatMap_cons, List.flatMap_nil, List.append_nil, pieces_noslash _ c0,
      pieces_noslash _ r0, isRooted_plain _ c0]
    simp [cleanElems, cleanStep, c1, c2, c3, r1, r2, r3]
  simp only [Driver.target, hj, Path.JoinPath, collDir_eq, pieces_noslash _ c0]
  have : d.dir.elems ++ [collection, resource] = (d.dir.elems ++ [collection]) ++ [resource] := by
    simp
  rw [this, cleanElems_snoc _ _ _ r1 r2 r3]

theorem target_empty (d : Driver) (collection : String) (hc : PlainName collection) :
    d.target collection "" = d.collDir collection := by
  obtain ⟨c0, c1, c2, c3⟩ := hc
  have hj : Join [collection, ""] = ⟨false, [collection]⟩ := by
    simp only [Join, List.dropWhile_cons, c1, decide_False, Bool.false_eq_true, if_false,
      List.flatMap_cons, List.flatMap_nil, List.append_nil, pieces_noslash _ c0,
      isRooted_plain _ c0]
    simp [cleanElems, cleanStep, c1, c2, c3, pieces, splitAux]
  simp only [Driver.target, hj, Path.JoinPath, collDir_eq, pieces_noslash _ c0]

theorem collDir_plain (d : Driver) (collection : String) (hc : PlainName collection) :
    d.collDir collection
      = ⟨d.dir.rooted, cleanElems d.dir.rooted d.dir.elems ++ [collection]⟩ := by
  obtain ⟨c0, c1, c2, c3⟩ := hc
  rw [collDir_eq, pieces_noslash _ c0, cleanElems_snoc _ _ _ c1 c2 c3]

theorem Delete_eq (d : Driver) (fs : FS) (collection resource : String)
    (hc : collection ≠ "") :
    d.Delete fs collection resource
      = match stat fs (d.target collection resource) with
        | Except.error _ => (some Error.notFound, fs)
        | Except.ok Node.dir => (none, (RemoveAll fs (d.target collection resource)).2)
        | Except.ok (Node.file _) =>
          (none, (RemoveAll fs ((d.target collection resource).add ".json")).2) := by
  unfold Driver.Delete
  rw [if_neg hc]
  rfl

theorem within_snoc_anchor {r : Bool} {xs : List String} {c : String} {q : Path}
    (hc : c ≠ "..") (h : (⟨r, xs ++ [c]⟩ : Path).within q = true) : isAnchor q = false := by
  simp only [Path.within, Bool.and_eq_true, List.isPrefixOf_iff_prefix] at h
  obtain ⟨t, ht⟩ := h.2
  simp only [isAnchor, ← ht, List.all_append, List.all_cons, List.all_nil]
  simp [hc]

theorem json_not_within (r : Bool) (xs : List String) (c : String) :
    (⟨r, xs ++ [c ++ ".json"]⟩ : Path).within ⟨r, xs ++ [c]⟩ = false := by
  by_contra hh
  simp only [Bool.not_eq_false, Path.within, Bool.and_eq_true,
    List.isPrefixOf_iff_prefix] at hh
  have h1 := hh.2.eq_of_length (by simp)
  have h2 : c ++ ".json" = c := by simpa using h1
  exact absurd (append_eq_self h2) (by decide)

theorem ReadFile_of_Stat {fs : FS} {p : Path} {data : String}
    (h : Stat fs p = some (Node.file data)) : ReadFile fs p = Except.ok data := by
  unfold ReadFile
  rw [Stat_ok.mp h]

theorem ReadDir_of_Stat {fs : FS} {p : Path} (h : Stat fs p = some Node.dir) :
    ReadDir fs p = Except.ok (childNames fs p) := by
  unfold ReadDir
  rw [Stat_ok.mp h]

theorem snoc_not_within (r : Bool) (xs : List String) (c : String) :
    (⟨r, xs ++ [c]⟩ : Path).within ⟨r, xs⟩ = false := by
  by_contra hh
  simp only [Bool.not_eq_false, within_iff] at hh
  have := hh.2.length_le
  simp at this

theorem anchor_parent {p : Path} (h : isAnchor p = true) : isAnchor p.parent = true := by
  simp only [isAnchor, Path.parent, List.all_eq_true] at h ⊢
  exact fun x hx => h x (List.dropLast_subset _ hx)

theorem stat_of_parent_err {fs : FS} {p : Path} (ha : isAnchor p = false)
    (h : osStat fs p.parent = Except.error Error.notExist) :
    stat fs p = Except.error Error.notExist := by
  obtain ⟨c1, -, -⟩ := @osStat_add_of_parent fs p ".json" ha
  unfold stat
  rw [(c1 _ h).1]
  exact (c1 _ h).2

theorem stat_of_parent_file {fs : FS} {p : Path} {data : String}
    (h : Stat fs p.parent = some (Node.file data)) :
    stat fs p = Except.error Error.notDir := by
  have ha : isAnchor p = false := by
    by_contra hh
    rw [Stat_anchor fs _ (anchor_parent (by simpa using hh))] at h
    simp at h
  obtain ⟨-, c2, -⟩ := @osStat_add_of_parent fs p ".json" ha
  unfold stat
  rw [(c2 _ (Stat_ok.mp h)).1]

theorem stat_of_not_dir_snoc {fs : FS} {r : Bool} {xs : List String} (x : String)
    (h : Stat fs ⟨r, xs⟩ ≠ some Node.dir) :
    stat fs ⟨r, xs ++ [x]⟩ = Except.error Error.notExist ∨
      stat fs ⟨r, xs ++ [x]⟩ = Except.error Error.notDir := by
  refine (stat_fail (Stat_snoc_not_dir x h) ?_).2
  rw [add_snoc]
  exact Stat_snoc_not_dir _ h

/-! ## Claims -/

/-- C9: when `Write(collection, resource, v)` succeeds, the same `Write`
again (with no injected I/O failure) succeeds too and leaves the file system
exactly as the first one left it; the final path holds the serialized value
followed by one newline, and the temp path does not exist. -/
theorem write_idempotent {V : Type} (c : Codec V) (d : Driver) (fs fs1 : FS) (io : Faults)
    (collection resource : String) (v : V)
    (h : Driver.Write c d fs io collection resource v = (none, fs1)) :
    Driver.Write c d fs1 Faults.none collection resource v = (none, fs1) ∧
      (∃ b, c.MarshalIndent v = Except.ok b ∧
        Stat fs1 (d.fnlPath collection resource) = some (Node.file (b ++ "\n"))) ∧
      Stat fs1 (d.tmpPath collection resource) = none := by
  obtain ⟨b, R, hb, hfs, hRf, hRt, hdir, hfp, htp, hst_f, hst_t⟩ := Write_ok_state h
  have hne : d.tmpPath collection resource ≠ d.fnlPath collection resource :=
    Path.add_ne _ _ (by decide)
  have hget_t : FS.get fs1 (d.tmpPath collection resource) = none := by
    rw [hfs, get_cons, if_neg (Ne.symm hne)]; exact hRt
  refine ⟨?_, ⟨b, hb, hst_f⟩, hst_t⟩
  have hnd : Stat fs1 (d.tmpPath collection resource) ≠ some Node.dir := by
    rw [hst_t]; simp
  have hw : WriteFile fs1 (d.tmpPath collection resource) (b ++ "\n") none
      = (none, fs1.set (d.tmpPath collection resource) (Node.file (b ++ "\n"))) :=
    WriteFile_eq hnd htp
  rw [Write_eq hdir hb hw]
  obtain ⟨s1, s2⟩ := set_file_spec (b ++ "\n") hnd htp
  have hset : fs1.set (d.tmpPath collection resource) (Node.file (b ++ "\n"))
      = (d.tmpPath collection resource, Node.file (b ++ "\n")) :: fs1 := by
    simp [FS.set, erase_of_get_none _ _ hget_t]
  have hpt : (d.fnlPath collection resource).parent ≠ d.tmpPath collection resource := by
    intro hh; rw [hh, hst_t] at hfp; simp at hfp
  rw [@Rename_eq _ _ _ (b ++ "\n") s1
    (by rw [s2 _ (Ne.symm hne), hst_f]; simp)
    (by rw [s2 _ hpt]; exact hfp)]
  rw [hset, erase_cons, if_pos rfl, erase_of_get_none _ _ hget_t]
  have hR : FS.erase fs1 (d.fnlPath collection resource) = R := by
    rw [hfs, erase_cons, if_pos rfl, erase_of_get_none _ _ hRf]
  simp only [FS.set]
  rw [hR, erase_of_get_none _ _ hRf, ← hfs]

/-- Witness for C9: the first write of `john` into the empty database. -/
theorem write_idempotent_witness :
    Driver.Write quoteCodec dbDriver emptyDB Faults.none "users" "john" "J" = (none, johnDB) ∧
    (Driver.Write quoteCodec dbDriver johnDB Faults.none "users" "john" "J" = (none, johnDB) ∧
      (∃ b, quoteCodec.MarshalIndent "J" = Except.ok b ∧
        Stat johnDB (dbDriver.fnlPath "users" "john") = some (Node.file (b ++ "\n"))) ∧
      Stat johnDB (dbDriver.tmpPath "users" "john") = none) :=
  ⟨rfl, write_idempotent quoteCodec dbDriver emptyDB johnDB Faults.none "users" "john" "J" rfl⟩

/-- C3 at a failing input: `Write` with an empty collection, and `Write` with
an empty resource, return no error and create a file. -/
theorem write_empty_name_not_rejected :
    Driver.Write quoteCodec dbDriver emptyDB Faults.none "" "john" "J"
      = (none, [(⟨false, ["db", "john.json"]⟩, Node.file "\"J\"\n"),
          (⟨false, ["db"]⟩, Node.dir)]) ∧
    Driver.Write quoteCodec dbDriver emptyDB Faults.none "users" "" "J"
      = (none, [(⟨false, ["db", "users", ".json"]⟩, Node.file "\"J\"\n"),
          (⟨false, ["db", "users"]⟩, Node.dir), (⟨false, ["db"]⟩, Node.dir)]) := by
  constructor <;> rfl

/-- C1 as stated fails: with the resource name `.`, `Write` succeeds (it
stores `db/users/..json`) and the `Read` that follows fails, because it looks
for `db/users.json`. -/
theorem write_read_dot_fails :
    (Driver.Write quoteCodec dbDriver emptyDB Faults.none "users" "." "J").1 = none ∧
    Driver.Read quoteCodec dbDriver
        (Driver.Write quoteCodec dbDriver emptyDB Faults.none "users" "." "J").2 "users" "."
      = Except.error Error.notExist ∧
    quoteCodec.Unmarshal ("\"J\"" ++ "\n") = Except.ok "J" := by
  refine ⟨rfl, rfl, rfl⟩

/-- C1, amended: for every database directory, every collection name, every
plain resource name (no separator, not empty, `.` or `..`) and every value
that round-trips through the codec, a `Write` that returns no error is
followed by a `Read` that returns no error and yields the value written. -/
theorem write_read_roundtrip {V : Type} (c : Codec V) (d : Driver) (fs fs1 : FS)
    (io : Faults) (collection resource : String) (v : V)
    (hres : PlainName resource) (hrt : RoundTrips c v)
    (h : Driver.Write c d fs io collection resource v = (none, fs1)) :
    Driver.Read c d fs1 collection resource = Except.ok v := by
  obtain ⟨b, hb, hst⟩ := Write_ok_final h
  rw [← record_json d collection resource hres] at hst
  obtain ⟨m, hm⟩ := stat_ok_of_json hst
  rw [Read_eq c d fs1 collection resource hm, ReadFile_of_Stat hst]
  exact hrt b hb

/-- Witness for C1: `john` is written into the empty database and read back. -/
theorem write_read_roundtrip_witness :
    PlainName "john" ∧ RoundTrips quoteCodec "J" ∧
    Driver.Write quoteCodec dbDriver emptyDB Faults.none "users" "john" "J" = (none, johnDB) ∧
    Driver.Read quoteCodec dbDriver johnDB "users" "john" = Except.ok "J" :=
  have hrt : RoundTrips quoteCodec "J" := by
    intro b hb
    have : b = "\"J\"" := by
      simp only [quoteCodec, Except.ok.injEq] at hb
      exact hb.symm
    subst this
    rfl
  ⟨by decide, hrt, rfl,
    write_read_roundtrip quoteCodec dbDriver emptyDB johnDB Faults.none "users" "john" "J"
      (by decide) hrt rfl⟩

/-- C2 as stated fails: `Write("x.json", "../x", v)` makes the collection
directory `db/x.json`, which is also the final path; the rename then fails,
`Write` returns an error, and the final path, absent before, is a directory. -/
theorem failed_write_changes_final :
    Stat emptyDB (dbDriver.fnlPath "x.json" "../x") = none ∧
    (Driver.Write quoteCodec dbDriver emptyDB Faults.none "x.json" "../x" "J").1
      = some Error.exist ∧
    Stat (Driver.Write quoteCodec dbDriver emptyDB Faults.none "x.json" "../x" "J").2
        (dbDriver.fnlPath "x.json" "../x") = some Node.dir := by
  refine ⟨rfl, rfl, rfl⟩

/-- C2, amended: for every collection, every resource name without a path
separator, every value and every injected I/O failure, a `Write` that returns
an error leaves the final path as it was (absent, or the same node with the
same bytes), and a `Write` that returns no error leaves there the complete
serialized value followed by a newline. -/
theorem failed_write_keeps_final {V : Type} (c : Codec V) (d : Driver) (fs fs1 : FS)
    (io : Faults) (collection resource : String) (v : V) (e : Option Error)
    (hres : '/' ∉ resource.data)
    (h : Driver.Write c d fs io collection resource v = (e, fs1)) :
    (e ≠ none →
      Stat fs1 (d.fnlPath collection resource) = Stat fs (d.fnlPath collection resource)) ∧
    (e = none → ∃ b, c.MarshalIndent v = Except.ok b ∧
      Stat fs1 (d.fnlPath collection resource) = some (Node.file (b ++ "\n"))) := by
  constructor
  · intro he
    cases e with
    | none => exact absurd rfl he
    | some err => exact Write_err_final hres h
  · intro he
    subst he
    exact Write_ok_final h

/-- Witness for C2: the temp-file write of a second `john` breaks off after
two bytes; the stored `john.json` is as before. -/
theorem failed_write_keeps_final_witness :
    '/' ∉ "john".data ∧
    Driver.Write quoteCodec dbDriver johnDB ⟨false, some 2, false⟩ "users" "john" "K"
      = (some Error.fault, johnShortDB) ∧
    Stat johnShortDB (dbDriver.fnlPath "users" "john")
      = Stat johnDB (dbDriver.fnlPath "users" "john") :=
  ⟨by decide, rfl,
    (failed_write_keeps_final quoteCodec dbDriver johnDB johnShortDB ⟨false, some 2, false⟩
      "users" "john" "K" (some Error.fault) (by decide) rfl).1 (by simp)⟩

/-- C7 as stated fails: after `john` is stored, `Read` with the name `john`
yields the value, but `Read` with the name `john.json` fails: it finds
`john.json` and then opens `john.json.json`. -/
theorem read_json_form_fails :
    Driver.Write quoteCodec dbDriver emptyDB Faults.none "users" "john" "J" = (none, johnDB) ∧
    Driver.Read quoteCodec dbDriver johnDB "users" "john" = Except.ok "J" ∧
    Driver.Read quoteCodec dbDriver johnDB "users" ("john" ++ ".json")
      = Except.error Error.notExist := by
  refine ⟨rfl, rfl, rfl⟩

/-- C7, amended: `Read` tests the bare record path with `os.Stat` and, only
when that fails with not-exist, the path with `.json` appended.  When neither
is found `Read` fails with the error of that test: not-exist when the
directory that would hold the record exists, not-a-directory when a regular
file is in the place of that directory.  When one of the two is found `Read`
reads and deserializes the path with `.json` appended, whichever of the two
was found.  So for a plain resource `r` stored by a successful `Write`,
`Read` of `r` yields the value, and `Read` of `r.json` opens `r.json.json`. -/
theorem read_resolves {V : Type} (c : Codec V) (d : Driver) (fs : FS)
    (collection resource : String) :
    (Stat fs (d.record collection resource) = none →
      Stat fs ((d.record collection resource).add ".json") = none →
      (Driver.Read c d fs collection resource = Except.error Error.notExist ∨
        Driver.Read c d fs collection resource = Except.error Error.notDir) ∧
      (Stat fs (d.record collection resource).parent = some Node.dir →
        Driver.Read c d fs collection resource = Except.error Error.notExist)) ∧
    (∀ data, Stat fs (d.record collection resource).parent = some (Node.file data) →
      Driver.Read c d fs collection resource = Except.error Error.notDir) ∧
    ((Stat fs (d.record collection resource) ≠ none ∨
        Stat fs ((d.record collection resource).add ".json") ≠ none) →
      Driver.Read c d fs collection resource
        = match ReadFile fs ((d.record collection resource).add ".json") with
          | Except.error err => Except.error err
          | Except.ok b => c.Unmarshal b) ∧
    (∀ (fs0 : FS) (io : Faults) (v : V), PlainName resource → RoundTrips c v →
      Driver.Write c d fs0 io collection resource v = (none, fs) →
      Driver.Read c d fs collection resource = Except.ok v ∧
      Driver.Read c d fs collection (resource ++ ".json")
        = match ReadFile fs ((d.fnlPath collection resource).add ".json") with
          | Except.error err => Except.error err
          | Except.ok b => c.Unmarshal b) := by
  refine ⟨?_, ?_, ?_, ?_⟩
  · intro h1 h2
    obtain ⟨f1, f2⟩ := stat_fail h1 h2
    refine ⟨?_, fun hp => Read_err c d fs _ _ (f1 hp)⟩
    rcases f2 with f2 | f2
    · exact Or.inl (Read_err c d fs _ _ f2)
    · exact Or.inr (Read_err c d fs _ _ f2)
  · intro data hp
    exact Read_err c d fs _ _ (stat_of_parent_file hp)
  · intro h
    obtain ⟨m, hm⟩ := stat_ok_of_exists h
    exact Read_eq c d fs collection resource hm
  · intro fs0 io v hres hrt hw
    obtain ⟨b, hb, hst⟩ := Write_ok_final hw
    constructor
    · rw [← record_json d collection resource hres] at hst
      obtain ⟨m, hm⟩ := stat_ok_of_json hst
      rw [Read_eq c d fs collection resource hm, ReadFile_of_Stat hst]
      exact hrt b hb
    · rw [← record_of_json d collection resource hres.1] at hst ⊢
      exact Read_eq c d fs collection _ (stat_ok_of_self hst)

/-- Witness for C7: on the database holding `john`, the name `john` resolves
through `john.json` and yields the value. -/
theorem read_resolves_witness :
    (Stat johnDB (dbDriver.record "users" "john") ≠ none ∨
        Stat johnDB ((dbDriver.record "users" "john").add ".json") ≠ none) ∧
    Driver.Read quoteCodec dbDriver johnDB "users" "john"
      = match ReadFile johnDB ((dbDriver.record "users" "john").add ".json") with
        | Except.error err => Except.error err
        | Except.ok b => quoteCodec.Unmarshal b :=
  ⟨Or.inr (by decide),
    (read_resolves quoteCodec dbDriver johnDB "users" "john").2.2.1 (Or.inr (by decide))⟩

/-- C8 as stated fails in its last part: `Write("users", "../x", v)` succeeds
and stores `db/x.json`, outside the collection; `ReadAll("users")` then
succeeds without the text of `v`. -/
theorem readAll_misses_escaped_write :
    (Driver.Write quoteCodec dbDriver johnDB Faults.none "users" "../x" "K").1 = none ∧
    dbDriver.ReadAll
        (Driver.Write quoteCodec dbDriver johnDB Faults.none "users" "../x" "K").2 "users"
      = Except.ok ["\"J\"\n"] ∧
    quoteCodec.MarshalIndent "K" = Except.ok "\"K\"" ∧
    "\"K\"" ++ "\n" ∉ ["\"J\"\n"] := by
  refine ⟨rfl, rfl, rfl, by decide⟩

/-- C8, amended: for a non-empty collection whose directory exists, with
`names` the directory listing: if every entry is readable, `ReadAll` returns
one string per entry, the i-th being the full contents of the i-th entry; if
some entry is not readable, `ReadAll` returns the error of such an entry and
no records.  After a successful `Write` of a resource name without path
separator, a successful `ReadAll` contains the serialized text of the
value. -/
theorem readAll_all_or_nothing (d : Driver) (fs : FS) (collection : String)
    (hc : collection ≠ "") (hdir : Stat fs (d.collDir collection) = some Node.dir) :
    ∃ names, ReadDir fs (d.collDir collection) = Except.ok names ∧
      ((∀ name ∈ names, ∃ b, ReadFile fs ((d.collDir collection).Join [name]) = Except.ok b) →
        ∃ records, d.ReadAll fs collection = Except.ok records ∧
          List.Forall₂
            (fun name b => ReadFile fs ((d.collDir collection).Join [name]) = Except.ok b)
            names records) ∧
      ((∃ name ∈ names, ∃ err,
          ReadFile fs ((d.collDir collection).Join [name]) = Except.error err) →
        ∃ err, d.ReadAll fs collection = Except.error err ∧
          ∃ name ∈ names,
            ReadFile fs ((d.collDir collection).Join [name]) = Except.error err) ∧
      (∀ (V : Type) (c : Codec V) (fs0 : FS) (io : Faults) (r : String) (v : V)
          (records : List String), '/' ∉ r.data →
        Driver.Write c d fs0 io collection r v = (none, fs) →
        d.ReadAll fs collection = Except.ok records →
        ∃ b, c.MarshalIndent v = Except.ok b ∧ b ++ "\n" ∈ records) := by
  refine ⟨childNames fs (d.collDir collection), ReadDir_of_Stat hdir, ?_, ?_, ?_⟩
  · intro h
    obtain ⟨records, hrec⟩ := readEntries_ok fs _ _ h
    exact ⟨records, by rw [ReadAll_eq d fs collection hc hdir]; exact hrec,
      readEntries_forall fs _ _ records hrec⟩
  · intro h
    rw [ReadAll_eq d fs collection hc hdir]
    exact readEntries_err fs _ _ h
  · intro V c fs0 io r v records hr hw hall
    obtain ⟨b, R, hb, hfs, -, -, -, -, -, -, -⟩ := Write_ok_state hw
    refine ⟨b, hb, ?_⟩
    rw [ReadAll_eq d fs collection hc hdir] at hall
    have hmem : r ++ ".json" ∈ childNames fs (d.collDir collection) := by
      rw [hfs, fnlPath_eq d collection r hr]
      exact mem_childNames_head d.dir.rooted _ _ _ R (json_ne r).2.2
    obtain ⟨b1, hb1, hread⟩ := mem_of_forall₂ (readEntries_forall fs _ _ records hall) hmem
    obtain ⟨b2, -, hst⟩ := Write_ok_final hw
    have hfin : ReadFile fs ((d.collDir collection).Join [r ++ ".json"])
        = Except.ok (b ++ "\n") := by
      obtain ⟨b3, hb3, hst3⟩ := Write_ok_final hw
      rw [hb] at hb3
      simp only [Except.ok.injEq] at hb3
      subst hb3
      have : Stat fs ((d.collDir collection).Join [r ++ ".json"])
          = some (Node.file (b ++ "\n")) := hst3
      exact ReadFile_of_Stat this
    rw [hfin] at hread
    simp only [Except.ok.injEq] at hread
    rw [hread]; exact hb1

/-- Witness for C8: the collection `users` holding `john`. -/
theorem readAll_all_or_nothing_witness :
    "users" ≠ "" ∧ Stat johnDB (dbDriver.collDir "users") = some Node.dir ∧
    ∃ names, ReadDir johnDB (dbDriver.collDir "users") = Except.ok names ∧
      ((∀ name ∈ names,
          ∃ b, ReadFile johnDB ((dbDriver.collDir "users").Join [name]) = Except.ok b) →
        ∃ records, dbDriver.ReadAll johnDB "users" = Except.ok records ∧
          List.Forall₂
            (fun name b => ReadFile johnDB ((dbDriver.collDir "users").Join [name])
              = Except.ok b)
            names records) :=
  ⟨by decide, rfl,
    (readAll_all_or_nothing dbDriver johnDB "users" (by decide) rfl).imp
      (fun _ h => ⟨h.1, h.2.1⟩)⟩

/-- C4 as stated fails: with the file `db/users.json` present and no directory
`db/users`, `ReadAll("users")` succeeds with no records, and
`Delete("users", "")` returns no error and removes `db/users.json`.  With
`db/plain` a regular file (so no directory `db/plain`), `ReadAll("plain")`
succeeds with no records and `Delete("plain", "")` returns no error.  With no
directory `db/ghost`, `Delete("ghost", "../users")` returns no error and
removes the collection `users`. -/
theorem absent_collection_not_reported :
    Stat usersFileDB (dbDriver.collDir "users") = none ∧
    dbDriver.ReadAll usersFileDB "users" = Except.ok [] ∧
    dbDriver.Delete usersFileDB "users" "" = (none, emptyDB) ∧
    Stat plainFileDB (dbDriver.collDir "plain") = some (Node.file "x") ∧
    dbDriver.ReadAll plainFileDB "plain" = Except.ok [] ∧
    dbDriver.Delete plainFileDB "plain" "" = (none, plainFileDB) ∧
    Stat johnDB (dbDriver.collDir "ghost") = none ∧
    dbDriver.Delete johnDB "ghost" "../users" = (none, emptyDB) := by
  refine ⟨rfl, rfl, rfl, rfl, rfl, rfl, rfl, rfl⟩

/-- C4, amended: (i) `Read` returns an error whenever neither the record path
nor that path with `.json` appended exists; (ii) `ReadAll` of a non-empty
collection returns an error whenever nothing exists at the collection path
(neither a directory nor a file) and nothing at that path with `.json`
appended; in both the error is not-exist or not-a-directory, and it is
not-exist when the directory that would hold the path exists; (iii) `Delete`
with a plain collection name returns its not-found error and leaves the file
system as it was, for every plain resource name whenever the collection path
is not a directory, and for the empty resource name whenever nothing exists at
the collection path and nothing at that path with `.json` appended. -/
theorem absent_targets {V : Type} (c : Codec V) (d : Driver) (fs : FS)
    (collection resource : String) :
    (Stat fs (d.record collection resource) = none →
      Stat fs ((d.record collection resource).add ".json") = none →
      (Driver.Read c d fs collection resource = Except.error Error.notExist ∨
        Driver.Read c d fs collection resource = Except.error Error.notDir) ∧
      (Stat fs (d.record collection resource).parent = some Node.dir →
        Driver.Read c d fs collection resource = Except.error Error.notExist)) ∧
    (collection ≠ "" → Stat fs (d.collDir collection) = none →
      Stat fs ((d.collDir collection).add ".json") = none →
      (d.ReadAll fs collection = Except.error Error.notExist ∨
        d.ReadAll fs collection = Except.error Error.notDir) ∧
      (Stat fs (d.collDir collection).parent = some Node.dir →
        d.ReadAll fs collection = Except.error Error.notExist)) ∧
    (PlainName collection →
      ((PlainName resource ∧ Stat fs (d.collDir collection) ≠ some Node.dir) ∨
        (resource = "" ∧ Stat fs (d.collDir collection) = none ∧
          Stat fs ((d.collDir collection).add ".json") = none)) →
      d.Delete fs collection resource = (some Error.notFound, fs)) := by
  refine ⟨?_, ?_, ?_⟩
  · intro h1 h2
    obtain ⟨f1, f2⟩ := stat_fail h1 h2
    refine ⟨?_, fun hp => Read_err c d fs _ _ (f1 hp)⟩
    rcases f2 with f2 | f2
    · exact Or.inl (Read_err c d fs _ _ f2)
    · exact Or.inr (Read_err c d fs _ _ f2)
  · intro hc h1 h2
    obtain ⟨f1, f2⟩ := stat_fail h1 h2
    have key : ∀ err, stat fs (d.collDir collection) = Except.error err →
        d.ReadAll fs collection = Except.error err := by
      intro err he
      have h3 : stat fs (d.dir.Join [collection]) = Except.error err := he
      unfold Driver.ReadAll
      rw [if_neg hc]
      simp only [h3]
    refine ⟨?_, fun hp => key _ (f1 hp)⟩
    rcases f2 with f2 | f2
    · exact Or.inl (key _ f2)
    · exact Or.inr (key _ f2)
  · intro hc hr
    rw [Delete_eq d fs collection resource hc.2.1]
    have hst : ∃ err, stat fs (d.target collection resource) = Except.error err := by
      rcases hr with ⟨hr, h1⟩ | ⟨hr, h1, h2⟩
      · rw [target_plain d _ _ hc hr]
        have hd : Stat fs ⟨d.dir.rooted, (d.collDir collection).elems⟩ ≠ some Node.dir := h1
        rcases stat_of_not_dir_snoc resource hd with hh | hh
        · exact ⟨_, hh⟩
        · exact ⟨_, hh⟩
      · subst hr
        rw [target_empty d _ hc]
        rcases (stat_fail h1 h2).2 with hh | hh
        · exact ⟨_, hh⟩
        · exact ⟨_, hh⟩
    obtain ⟨err, he⟩ := hst
    rw [he]

/-- Witness for C4: on the empty database no collection `users` exists;
`Delete("users", "john")` reports not-found and changes nothing. -/
theorem absent_targets_witness :
    PlainName "users" ∧ PlainName "john" ∧
    Stat emptyDB (dbDriver.collDir "users") ≠ some Node.dir ∧
    dbDriver.Delete emptyDB "users" "john" = (some Error.notFound, emptyDB) :=
  ⟨by decide, by decide, by decide,
    (absent_targets quoteCodec dbDriver emptyDB "users" "john").2.2 (by decide)
      (Or.inl ⟨by decide, by decide⟩)⟩

/-- C5 as stated fails: with the collection name `/..` the record path of
`Read` and `Write` is `x` beside the database, where `x.json` is a regular
file and `x` does not exist, but `Delete` looks for `db/x` and reports
not-found. -/
theorem delete_rooted_collection_fails :
    "/.." ≠ "" ∧ "x" ≠ "" ∧
    Stat besideDB (dbDriver.record "/.." "x") = none ∧
    Stat besideDB ((dbDriver.record "/.." "x").add ".json") = some (Node.file "\"J\"\n") ∧
    Stat besideDB (dbDriver.fnlPath "/.." "x") = some (Node.file "\"J\"\n") ∧
    dbDriver.Delete besideDB "/.." "x" = (some Error.notFound, besideDB) := by
  refine ⟨by decide, by decide, rfl, rfl, rfl, rfl⟩

/-- C5, amended: for plain collection and resource names such that
`<root>/<collection>/<resource>.json` is a regular file and the unsuffixed
path does not exist, `Delete` returns no error, removes that file and leaves
every path that is not it (or beneath it) as it was, and a `Read` that
follows fails with the not-exist error. -/
theorem delete_single {V : Type} (c : Codec V) (d : Driver) (fs : FS)
    (collection resource : String) (data : String)
    (hc : PlainName collection) (hr : PlainName resource)
    (hfile : Stat fs (d.fnlPath collection resource) = some (Node.file data))
    (hbare : Stat fs (d.record collection resource) = none) :
    ∃ fs1, d.Delete fs collection resource = (none, fs1) ∧
      Stat fs1 (d.fnlPath collection resource) = none ∧
      (∀ q, (d.fnlPath collection resource).within q = false → Stat fs1 q = Stat fs q) ∧
      Driver.Read c d fs1 collection resource = Except.error Error.notExist := by
  have htr : d.target collection resource = d.record collection resource := by
    rw [target_plain d _ _ hc hr, record_eq d _ _ hr]
  have hrj := record_json d collection resource hr
  have hna : isAnchor (d.fnlPath collection resource) = false :=
    Stat_not_dir_not_anchor (by rw [hfile]; simp)
  have hra : isAnchor (d.record collection resource) = false := Stat_none_not_anchor hbare
  have hpf : (d.fnlPath collection resource).parent
      = ⟨d.dir.rooted, (d.collDir collection).elems⟩ := by
    rw [fnlPath_eq d _ _ hr.1, parent_snoc]
  have hpr : (d.record collection resource).parent
      = ⟨d.dir.rooted, (d.collDir collection).elems⟩ := by
    rw [record_eq d _ _ hr, parent_snoc]
  have hpar : Stat fs (d.record collection resource).parent = some Node.dir := by
    rw [hpr, ← hpf]
    exact Stat_parent_of_some hna hfile
  have hst : stat fs (d.target collection resource) = Except.ok (Node.file data) := by
    rw [htr]
    unfold stat
    rw [osStat_of_parent_none hra hpar hbare]
    simp only
    rw [hrj]
    exact Stat_ok.mp hfile
  have hne : d.fnlPath collection resource ≠ ⟨false, []⟩ := by
    intro hh; rw [hh] at hna; simp [isAnchor] at hna
  refine ⟨(RemoveAll fs (d.fnlPath collection resource)).2, ?_,
    RemoveAll_in fs _ _ hne (within_self _) hna, fun q hq => RemoveAll_out fs _ q hq, ?_⟩
  · rw [Delete_eq d fs collection resource hc.2.1, hst, htr, hrj]
  · have h1 : Stat (RemoveAll fs (d.fnlPath collection resource)).2
        (d.record collection resource) = none := by
      rw [RemoveAll_out fs _ _ ?_]
      · exact hbare
      · rw [fnlPath_eq d _ _ hr.1, record_eq d _ _ hr]
        exact json_not_within _ _ _
    have h2 : Stat (RemoveAll fs (d.fnlPath collection resource)).2
        ((d.record collection resource).add ".json") = none := by
      rw [hrj]
      exact RemoveAll_in fs _ _ hne (within_self _) hna
    have h3 : Stat (RemoveAll fs (d.fnlPath collection resource)).2
        (d.record collection resource).parent = some Node.dir := by
      rw [RemoveAll_out fs _ _ ?_]
      · exact hpar
      · rw [hpr, fnlPath_eq d _ _ hr.1]
        exact snoc_not_within _ _ _
    exact Read_err c d _ _ _ ((stat_fail h1 h2).1 h3)

/-- Witness for C5: `john` is deleted from the database holding it. -/
theorem delete_single_witness :
    PlainName "users" ∧ PlainName "john" ∧
    Stat johnDB (dbDriver.fnlPath "users" "john") = some (Node.file "\"J\"\n") ∧
    Stat johnDB (dbDriver.record "users" "john") = none ∧
    ∃ fs1, dbDriver.Delete johnDB "users" "john" = (none, fs1) ∧
      Stat fs1 (dbDriver.fnlPath "users" "john") = none ∧
      (∀ q, (dbDriver.fnlPath "users" "john").within q = false →
        Stat fs1 q = Stat johnDB q) ∧
      Driver.Read quoteCodec dbDriver fs1 "users" "john" = Except.error Error.notExist :=
  ⟨by decide, by decide, rfl, rfl,
    delete_single quoteCodec dbDriver johnDB "users" "john" "\"J\"\n" (by decide) (by decide)
      rfl rfl⟩

/-- C6 as stated fails: with the database directory `.` (as `New("./")`
makes it) and the collection name `.`, the resource `r` is stored as
`r.json`; `Delete(".", "")` returns no error and removes nothing, because
`os.RemoveAll` refuses the path `.`; the `Read` that follows still yields the
value. -/
theorem delete_dot_collection_keeps_all :
    "." ≠ "" ∧
    Driver.Write quoteCodec dotDriver [] Faults.none "." "r" "J" = (none, cwdDB) ∧
    Stat cwdDB (dotDriver.collDir ".") = some Node.dir ∧
    dotDriver.Delete cwdDB "." "" = (none, cwdDB) ∧
    Driver.Read quoteCodec dotDriver cwdDB "." "r" = Except.ok "J" := by
  refine ⟨by decide, rfl, rfl, rfl, rfl⟩

/-- C6, amended: for a plain collection name whose directory exists,
`Delete(collection, "")` returns no error and removes the collection
directory and every path beneath it, leaving every other path as it was;
afterwards `Read(collection, r)` fails with the not-exist error for every
plain resource name `r`. -/
theorem delete_collection {V : Type} (c : Codec V) (d : Driver) (fs : FS)
    (collection : String) (hc : PlainName collection)
    (hdir : Stat fs (d.collDir collection) = some Node.dir) :
    ∃ fs1, d.Delete fs collection "" = (none, fs1) ∧
      (∀ q, (d.collDir collection).within q = true → Stat fs1 q = none) ∧
      (∀ q, (d.collDir collection).within q = false → Stat fs1 q = Stat fs q) ∧
      (∀ r, PlainName r → Driver.Read c d fs1 collection r = Except.error Error.notExist) := by
  have hcd := collDir_plain d collection hc
  have hne : d.collDir collection ≠ ⟨false, []⟩ := by
    rw [hcd]; intro hh
    have := congrArg Path.elems hh
    simp at this
  have hin : ∀ q, (d.collDir collection).within q = true →
      Stat (RemoveAll fs (d.collDir collection)).2 q = none := by
    intro q hq
    refine RemoveAll_in fs _ q hne hq ?_
    rw [hcd] at hq
    exact within_snoc_anchor hc.2.2.2 hq
  refine ⟨(RemoveAll fs (d.collDir collection)).2, ?_, hin,
    fun q hq => RemoveAll_out fs _ q hq, ?_⟩
  · rw [Delete_eq d fs collection "" hc.2.1, target_empty d _ hc, stat_ok_of_self hdir]
  · intro r hr
    have hca : isAnchor (d.collDir collection) = false := by
      rw [hcd]; simp [isAnchor, hc.2.2.2]
    have hgone : Stat (RemoveAll fs (d.collDir collection)).2 (d.collDir collection) = none :=
      hin _ (within_self _)
    have hpp : Stat (RemoveAll fs (d.collDir collection)).2 (d.collDir collection).parent
        = some Node.dir := by
      rw [RemoveAll_out fs _ _ ?_]
      · exact Stat_parent_of_some hca hdir
      · rw [hcd, parent_snoc]
        exact snoc_not_within _ _ _
    have hcol := osStat_of_parent_none hca hpp hgone
    have hrp : (d.record collection r).parent = d.collDir collection := by
      rw [record_eq d _ _ hr, parent_snoc]
      rfl
    have hra : isAnchor (d.record collection r) = false := by
      rw [record_eq d _ _ hr]; simp [isAnchor, hr.2.2.2]
    exact Read_err c d _ _ _ (stat_of_parent_err hra (by rw [hrp]; exact hcol))

/-- Witness for C6: the collection `users` holding `john` is deleted. -/
theorem delete_collection_witness :
    PlainName "users" ∧ Stat johnDB (dbDriver.collDir "users") = some Node.dir ∧
    dbDriver.Delete johnDB "users" "" = (none, emptyDB) ∧
    ∃ fs1, dbDriver.Delete johnDB "users" "" = (none, fs1) ∧
      (∀ q, (dbDriver.collDir "users").within q = true → Stat fs1 q = none) ∧
      (∀ q, (dbDriver.collDir "users").within q = false → Stat fs1 q = Stat johnDB q) ∧
      (∀ r, PlainName r →
        Driver.Read quoteCodec dbDriver fs1 "users" r = Except.error Error.notExist) :=
  ⟨by decide, rfl, rfl,
    delete_collection quoteCodec dbDriver johnDB "users" (by decide) rfl⟩

end SimpleDB
